import Mathlib

/-!
Cluster simulation: k-means and k-medoids partitioning.

A shallow embedding of `src/cluster-simulation/k_means.h` (namespace
`ntf::cluster`, instantiated at `T = int32_t`) together with the properties
proved about it.

Conventions of the embedding.

* `int32_t` coordinates are unbounded integers (`Int`); signed overflow is
  undefined in the source, so every statement is about runs in which the
  coordinate sums and squared distances fit the machine type.  Division is the
  truncating division of C++ (`Int.tdiv`).
* `double` values only ever hold squared distances and their sums, which are
  integers; they are kept as exact integers.  `DBL_MAX` is `none` in an
  `Option Int`, larger than every such value.
* `std::vector` is `List`; a shared pointer to a copy of a point is the point.
* The random engine is the list of its future raw outputs; a
  `std::uniform_int_distribution<size_t>(lo, hi)` maps one raw output into
  `[lo, hi]`.
* Loops that the source does not bound take a `fuel` argument; running out of
  fuel, or out of engine outputs, is the fault `Fault.outOfFuel`.  Undefined
  behaviour (an index past the end, `back()` of an empty vector, a division by
  zero) and the exception of `vector::at` are faults as well.
-/

set_option linter.dupNamespace false

namespace ntf.cluster

/-- Reasons for which a run of the embedded code yields no result. -/
inductive Fault where
  | outOfFuel
  | indexOutOfRange
  | divisionByZero
  deriving DecidableEq, Repr

/-- Modelled from the spec: the point type `v2d<T>` of `cluster.h` (absent from
the sources at hand), "a pair of signed integers `(x, y)`". -/
structure v2d where
  x : Int
  y : Int
  deriving DecidableEq, Repr

namespace v2d

/-- Modelled from the spec: the value-initialised point `v2d<T>{}`, the zero
vector. -/
def zero : v2d := ⟨0, 0⟩

/-- Modelled from the spec: vector addition of `v2d<T>` (`operator+`,
`operator+=`). -/
def add (a b : v2d) : v2d := ⟨a.x + b.x, a.y + b.y⟩

/-- Modelled from the spec: scalar division of `v2d<T>` (`operator/`), with the
integer division of the element type. -/
def div (a : v2d) (d : Int) : v2d := ⟨Int.tdiv a.x d, Int.tdiv a.y d⟩

/-- Modelled from the spec: `v2d<T>::euclidean_distance_squared`, the squared
Euclidean distance to another point. -/
def euclidean_distance_squared (a b : v2d) : Int :=
  (a.x - b.x) * (a.x - b.x) + (a.y - b.y) * (a.y - b.y)

end v2d

/-- Modelled from the spec: the `cluster<T>` entity of `cluster.h`,
`{ mean_or_medoid, color, observations }`.  A colour is the number of a pixel
value. -/
structure cluster where
  mean : v2d
  color : Nat
  observations : List v2d
  deriving DecidableEq, Repr

/-- Modelled from the spec: a value-initialised `cluster<T>`, as held by
`std::vector<cluster<T>> clusters(k)`. -/
def cluster.init : cluster := ⟨v2d.zero, 0, []⟩

/-- Modelled from the spec: the `partitioning_profile` of `cluster.h`; the
elapsed wall-clock time is not part of the embedding. -/
structure partitioning_profile where
  iterations : Nat
  deriving DecidableEq, Repr

/-- Modelled from the spec: `partitioning_profile::reset`, which zeroes the
fields. -/
def partitioning_profile.reset (_p : partitioning_profile) : partitioning_profile := ⟨0⟩

/-- Modelled from the spec: `clear_clusters` of `cluster.h`, which "empties each
cluster's observation collection in place ...; means are preserved". -/
def clear_clusters (clusters : List cluster) : List cluster :=
  clusters.map (fun c => { c with observations := [] })

/-- Modelled from the spec: `find_empty_cluster` of `cluster.h`, the "first
cluster index (in iteration order) with zero assigned observations, or none";
`none` is the iterator `clusters.end()`. -/
def find_empty_cluster : List cluster → Option Nat
  | [] => none
  | c :: cs =>
    if c.observations.length = 0 then some 0
    else (find_empty_cluster cs).map (fun i => i + 1)

/-- Modelled from the spec: `dissimilarity` of `cluster.h`, the "sum over all
clusters of the sum of squared distances from each assigned observation to that
cluster's mean/medoid". -/
def dissimilarity (clusters : List cluster) : Int :=
  (clusters.map (fun c =>
    (c.observations.map (fun o => o.euclidean_distance_squared c.mean)).sum)).sum

/-- The value of `a - 1` computed in `size_t` (64 bits), as in
`observations.size() - 1`. -/
def size_t_pred (a : Nat) : Nat := (a + (2 ^ 64 - 1)) % 2 ^ 64

/-- One draw of `std::uniform_int_distribution<size_t>(0, hi)` from the raw
engine output `r`: a value in `[0, hi]`. -/
def uniform_draw (hi : Nat) (r : Nat) : Nat := r % (hi + 1)

/-- The library routine `std::lower_bound` with the comparator
`obs.x < target.x`, by its contract on a range partitioned by the comparator:
the first element for which the comparator is false; `none` is `end()`. -/
def lower_bound (l : List v2d) (target : v2d) : Option v2d :=
  l.find? (fun obs => !decide (obs.x < target.x))

/-- The library routine `std::sort` with the comparator `a.x < b.x`: the
observations in non-decreasing order of `x`.  The order of points of equal `x`
is not fixed by the library; the embedding keeps their input order. -/
def sort_by_x (observations : List v2d) : List v2d :=
  observations.insertionSort (fun a b => a.x ≤ b.x)

namespace k_means

/-- The divisor of `compute_centroid`,
`std::max(static_cast<T>(cluster.observations.size()), 1)`. -/
def centroid_divisor (c : cluster) : Int := max (c.observations.length : Int) 1

/-- The function `k_means::compute_centroid`. -/
def compute_centroid (c : cluster) : v2d :=
  let coords_sum := c.observations.foldl v2d.add v2d.zero
  coords_sum.div (centroid_divisor c)

/-- The function `k_means::converged`: the index loop over `clusters`, with the
early `return false`; reading `previous_means[i]` past its end is a fault. -/
def converged : List cluster → List v2d → Except Fault Bool
  | [], _ => .ok true
  | _ :: _, [] => .error .indexOutOfRange
  | c :: cs, p :: ps => if c.mean ≠ p then .ok false else converged cs ps

/-- The bounding-box loop of `find_optimal_means`, one observation: the four
`if`s on `plane_start` and `plane_end`. -/
def plane_step (acc : v2d × v2d) (observation : v2d) : v2d × v2d :=
  let plane_start := acc.1
  let plane_end := acc.2
  let plane_start : v2d :=
    if observation.x < plane_start.x then ⟨observation.x, plane_start.y⟩ else plane_start
  let plane_start : v2d :=
    if observation.y < plane_start.y then ⟨plane_start.x, observation.y⟩ else plane_start
  let plane_end : v2d :=
    if observation.x > plane_end.x then ⟨observation.x, plane_end.y⟩ else plane_end
  let plane_end : v2d :=
    if observation.y > plane_end.y then ⟨plane_end.x, observation.y⟩ else plane_end
  (plane_start, plane_end)

/-- The seeding loop of `find_optimal_means` from index `i`, with `remaining`
slots to fill: target point, lower bound, fallback to `observations.back()`. -/
def find_means_loop (observations : List v2d) (plane_sections_width : Int) (plane_centroid : v2d) :
    (remaining : Nat) → (i : Nat) → Except Fault (List v2d)
  | 0, _ => .ok []
  | remaining + 1, i =>
    let target_centroid : v2d :=
      ⟨plane_sections_width * (i : Int) + Int.tdiv plane_sections_width 2, plane_centroid.y⟩
    let mean? : Option v2d :=
      match lower_bound observations target_centroid with
      | some m => some m
      | none => observations.getLast?
    match mean? with
    | none => .error .indexOutOfRange
    | some mean =>
      match find_means_loop observations plane_sections_width plane_centroid remaining (i + 1) with
      | .error e => .error e
      | .ok means => .ok (mean :: means)

/-- The function `k_means::find_optimal_means`.  The observations are passed by
non-const reference and sorted in place, so the result holds the means and the
caller's observation sequence as it is after the call. -/
def find_optimal_means (k : Nat) (observations : List v2d) : Except Fault (List v2d × List v2d) :=
  let plane := observations.foldl plane_step (v2d.zero, v2d.zero)
  let plane_start := plane.1
  let plane_end := plane.2
  let plane_centroid := (plane_start.add plane_end).div 2
  let observations := sort_by_x observations
  if k = 0 then .error .divisionByZero
  else
    let plane_sections_width := Int.tdiv (plane_end.x - plane_start.x) (k : Int)
    match find_means_loop observations plane_sections_width plane_centroid k 0 with
    | .error e => .error e
    | .ok means => .ok (means, observations)

/-- The loop of `k_means::init_clusters` from index `i` over the means still to
be placed; `palette` is the table `VISUALLY_DISTINCT_COLORS`, indexed without a
range check. -/
def init_clusters_loop (palette : List Nat) : (remaining : Nat) → (i : Nat) → List v2d →
    Except Fault (List cluster)
  | 0, _, _ => .ok []
  | remaining + 1, i, means =>
    match means[i]?, palette[i]? with
    | some mean, some color =>
      match init_clusters_loop palette remaining (i + 1) means with
      | .error e => .error e
      | .ok clusters => .ok (⟨mean, color, []⟩ :: clusters)
    | _, _ => .error .indexOutOfRange

/-- The function `k_means::init_clusters`. -/
def init_clusters (palette : List Nat) (k : Nat) (means : List v2d) : Except Fault (List cluster) :=
  init_clusters_loop palette k 0 means

/-- The inner loop of `assign_observations` over the clusters from index `j`:
keeps the closest distance seen so far (`none` is `DBL_MAX`) and its index. -/
def closest_loop (observation : v2d) :
    List cluster → (j : Nat) → (closest_distance : Option Int) → (closest_cluster_index : Nat) → Nat
  | [], _, _, closest_cluster_index => closest_cluster_index
  | c :: cs, j, closest_distance, closest_cluster_index =>
    let distance := observation.euclidean_distance_squared c.mean
    let less : Bool :=
      match closest_distance with
      | none => true
      | some d => decide (distance < d)
    if less then closest_loop observation cs (j + 1) (some distance) j
    else closest_loop observation cs (j + 1) closest_distance closest_cluster_index

/-- The index `closest_cluster_index` that the inner loop of
`assign_observations` leaves for one observation. -/
def closest_cluster_index (clusters : List cluster) (observation : v2d) : Nat :=
  closest_loop observation clusters 0 none 0

/-- The statement `clusters[index].observations.push_back(observation)`. -/
def push_observation : List cluster → Nat → v2d → List cluster
  | [], _, _ => []
  | c :: cs, 0, o => { c with observations := c.observations ++ [o] } :: cs
  | c :: cs, index + 1, o => c :: push_observation cs index o

/-- The function `k_means::assign_observations`: the outer loop over the
observations.  With no cluster at all `clusters[0]` does not exist. -/
def assign_observations (clusters : List cluster) : List v2d → Except Fault (List cluster)
  | [] => .ok clusters
  | observation :: rest =>
    let index := closest_cluster_index clusters observation
    if index < clusters.length then
      assign_observations (push_observation clusters index observation) rest
    else .error .indexOutOfRange

/-- The final state of a call of `k_means::partition`: the returned clusters,
the local `previous_means`, the profile and the engine outputs not yet used. -/
structure result where
  clusters : List cluster
  previous_means : List v2d
  profile : partitioning_profile
  random_engine : List Nat
  deriving DecidableEq, Repr

/-- The seeding loop of `k_means::partition` (`for (size_t i = 0; i < param;)`)
at index `i`: draws until an index not yet visited comes, `hi` being the upper
end of `indices_distribution`. -/
def seed_loop (palette : List Nat) (observations : List v2d) (param hi : Nat) :
    (random_engine : List Nat) → (i : Nat) → (clusters : List cluster) →
    (visited_indices : List Nat) → Except Fault (List cluster × List Nat)
  | [], i, clusters, _ => if param ≤ i then .ok (clusters, []) else .error .outOfFuel
  | r :: rest, i, clusters, visited_indices =>
    if param ≤ i then .ok (clusters, r :: rest)
    else
      let random_index := uniform_draw hi r
      if visited_indices.contains random_index then
        seed_loop palette observations param hi rest i clusters visited_indices
      else
        match observations[random_index]?, palette[i]?, clusters[i]? with
        | some mean, some color, some c =>
          seed_loop palette observations param hi rest (i + 1)
            (clusters.set i { c with mean := mean, color := color })
            (random_index :: visited_indices)
        | _, _, _ => .error .indexOutOfRange

/-- The update loop of `k_means::partition`: `previous_means[i] = cluster.mean`
and `cluster.mean = compute_centroid(clusters[i])` for every cluster. -/
def update_means (clusters : List cluster) : List cluster × List v2d :=
  (clusters.map (fun c => { c with mean := compute_centroid c }), clusters.map (fun c => c.mean))

/-- The two ways in which the loop of `k_means::partition` is left: through its
condition, with the clusters to return, or through the test for an empty
cluster, where the source calls `partition` again; the profile is as the loop
leaves it. -/
inductive attempt where
  | finished (clusters : List cluster) (previous_means : List v2d)
      (profile : partitioning_profile)
  | empty_cluster (profile : partitioning_profile)
  deriving DecidableEq, Repr

/-- The `while (!converged(clusters, previous_means))` loop of
`k_means::partition`. -/
def lloyd_loop (observations : List v2d) : (fuel : Nat) → (clusters : List cluster) →
    (previous_means : List v2d) → (profile : partitioning_profile) → Except Fault attempt
  | 0, _, _, _ => .error .outOfFuel
  | fuel + 1, clusters, previous_means, profile =>
    match converged clusters previous_means with
    | .error e => .error e
    | .ok true => .ok (.finished clusters previous_means profile)
    | .ok false =>
      match assign_observations (clear_clusters clusters) observations with
      | .error e => .error e
      | .ok clusters =>
        match find_empty_cluster clusters with
        | some _ => .ok (.empty_cluster profile)
        | none =>
          let updated := update_means clusters
          lloyd_loop observations fuel updated.1 updated.2 ⟨profile.iterations + 1⟩

/-- The function `k_means::partition` with `this->param = param`; `fuel` bounds
the iterations of one attempt and the number of attempts. -/
def partition (palette : List Nat) (param : Nat) (observations : List v2d) :
    (fuel : Nat) → (random_engine : List Nat) → (profile : partitioning_profile) →
    Except Fault result
  | 0, _, _ => .error .outOfFuel
  | fuel + 1, random_engine, profile =>
    let profile := profile.reset
    let hi := size_t_pred observations.length
    match seed_loop palette observations param hi random_engine 0
        (List.replicate param cluster.init) [] with
    | .error e => .error e
    | .ok (clusters, random_engine) =>
      match lloyd_loop observations fuel clusters (List.replicate param v2d.zero) profile with
      | .error e => .error e
      | .ok (.finished clusters previous_means profile) =>
        .ok ⟨clusters, previous_means, profile, random_engine⟩
      | .ok (.empty_cluster profile) =>
        partition palette param observations fuel random_engine profile

/-- The observations that `assign_observations` appends to the clusters `cs`,
which sit at the indices `j, j + 1, ...` of the cluster vector `full`: cluster
`j` receives, in input order, the observations whose closest index is `j`. -/
def distribute (full : List cluster) (observations : List v2d) : List cluster → Nat → List cluster
  | [], _ => []
  | c :: cs, j =>
    { c with observations :=
        c.observations ++ observations.filter (fun o => closest_cluster_index full o = j) }
      :: distribute full observations cs (j + 1)

/-- The index `k` is the lowest one among the clusters whose mean is at minimal
squared distance from the observation `o`. -/
def lowest_nearest (clusters : List cluster) (o : v2d) (k : Nat) : Prop :=
  ∃ ck, clusters[k]? = some ck ∧
    (∀ (j : Nat) (c : cluster), clusters[j]? = some c →
      o.euclidean_distance_squared ck.mean ≤ o.euclidean_distance_squared c.mean) ∧
    (∀ (j : Nat) (c : cluster), j < k → clusters[j]? = some c →
      o.euclidean_distance_squared ck.mean < o.euclidean_distance_squared c.mean)

/-- The four observations of the scenario of the specification. -/
def scenario_observations : List v2d := [⟨0, 0⟩, ⟨0, 1⟩, ⟨10, 0⟩, ⟨10, 1⟩]

/-- Two cleared clusters with the means `(0,0)` and `(10,0)`. -/
def scenario_clusters : List cluster := [⟨⟨0, 0⟩, 0, []⟩, ⟨⟨10, 0⟩, 1, []⟩]

/-- The means and collections of a cluster vector, the colours left out. -/
def outcome (clusters : List cluster) : List (v2d × List v2d) :=
  clusters.map (fun c => (c.mean, c.observations))

/-- The outcome the scenario names: the observations split by their `x`, the
means being `(0,0)` and `(10,0)` under integer division. -/
def scenario_split : List (v2d × List v2d) :=
  [(⟨0, 0⟩, [⟨0, 0⟩, ⟨0, 1⟩]), (⟨10, 0⟩, [⟨10, 0⟩, ⟨10, 1⟩])]

/-- The other fixed point of the scenario: the observations split by their
`y`, the means being `(5,0)` and `(5,1)`. -/
def scenario_stripes : List (v2d × List v2d) :=
  [(⟨5, 0⟩, [⟨0, 0⟩, ⟨10, 0⟩]), (⟨5, 1⟩, [⟨0, 1⟩, ⟨10, 1⟩])]

end k_means

namespace k_medoids

/-- The final state of a call of `k_medoids::partition`: the returned clusters,
the caller's observation sequence as the call leaves it, the locals
`previous_means`, `current_dissimilarity` and `previous_dissimilarity` (`none`
is `DBL_MAX`), the profile and the engine outputs not yet used. -/
structure result where
  clusters : List cluster
  observations : List v2d
  previous_means : List v2d
  current_dissimilarity : Option Int
  previous_dissimilarity : Option Int
  profile : partitioning_profile
  random_engine : List Nat
  deriving DecidableEq, Repr

/-- The function `k_medoids::compute_medoid`; the fallback branch takes one
output of the engine, and `observations.at(index)` throws past the end. -/
def compute_medoid (c : cluster) (random_engine : List Nat) : Except Fault (v2d × List Nat) :=
  let centroid := k_means.compute_centroid c
  match lower_bound c.observations centroid with
  | some medoid => .ok (medoid, random_engine)
  | none =>
    match random_engine with
    | [] => .error .outOfFuel
    | r :: rest =>
      let index := uniform_draw (size_t_pred c.observations.length) r
      match c.observations[index]? with
      | some medoid => .ok (medoid, rest)
      | none => .error .indexOutOfRange

/-- The update loop of `k_medoids::partition`: `previous_means[i] = cluster.mean`
and `cluster.mean = compute_medoid(clusters[i])` for every cluster in turn. -/
def update_medoids : List cluster → (random_engine : List Nat) →
    Except Fault (List cluster × List v2d × List Nat)
  | [], random_engine => .ok ([], [], random_engine)
  | c :: cs, random_engine =>
    match compute_medoid c random_engine with
    | .error e => .error e
    | .ok (medoid, random_engine) =>
      match update_medoids cs random_engine with
      | .error e => .error e
      | .ok (clusters, previous_means, random_engine) =>
        .ok ({ c with mean := medoid } :: clusters, c.mean :: previous_means, random_engine)

/-- The comparison `current_dissimilarity >= previous_dissimilarity` on doubles,
`none` being `DBL_MAX`. -/
def dissimilarity_ge (current : Int) (previous : Option Int) : Bool :=
  match previous with
  | none => false
  | some p => decide (p ≤ current)

/-- The `while (true)` loop of `k_medoids::partition`.  An empty cluster takes
two outputs of the engine (the first one, `index`, is not used) and reseeds the
mean of that cluster before the loop body starts again. -/
def medoid_loop (observations : List v2d) : (fuel : Nat) → (clusters : List cluster) →
    (previous_means : List v2d) → (current_dissimilarity previous_dissimilarity : Option Int) →
    (profile : partitioning_profile) → (random_engine : List Nat) → Except Fault result
  | 0, _, _, _, _, _, _ => .error .outOfFuel
  | fuel + 1, clusters, previous_means, current_dissimilarity, previous_dissimilarity, profile,
      random_engine =>
    match k_means.assign_observations (clear_clusters clusters) observations with
    | .error e => .error e
    | .ok clusters =>
      match find_empty_cluster clusters with
      | some empty =>
        match random_engine with
        | _ :: r :: rest =>
          match observations[uniform_draw (size_t_pred observations.length) r]?,
              clusters[empty]? with
          | some mean, some c =>
            medoid_loop observations fuel (clusters.set empty { c with mean := mean })
              previous_means current_dissimilarity previous_dissimilarity profile rest
          | _, _ => .error .indexOutOfRange
        | _ => .error .outOfFuel
      | none =>
        match update_medoids clusters random_engine with
        | .error e => .error e
        | .ok (clusters, previous_means, random_engine) =>
          let profile : partitioning_profile := ⟨profile.iterations + 1⟩
          let previous_dissimilarity := current_dissimilarity
          let current := dissimilarity clusters
          if dissimilarity_ge current previous_dissimilarity then
            .ok ⟨clusters, observations, previous_means, some current, previous_dissimilarity,
              profile, random_engine⟩
          else
            medoid_loop observations fuel clusters previous_means (some current)
              previous_dissimilarity profile random_engine

/-- The function `k_medoids::partition` with `this->param = param`; `fuel`
bounds the number of passes through the loop body. -/
def partition (palette : List Nat) (param : Nat) (observations : List v2d) (fuel : Nat)
    (random_engine : List Nat) (profile : partitioning_profile) : Except Fault result :=
  let profile := profile.reset
  match k_means.find_optimal_means param observations with
  | .error e => .error e
  | .ok (optimal_means, observations) =>
    match k_means.init_clusters palette param optimal_means with
    | .error e => .error e
    | .ok clusters =>
      medoid_loop observations fuel clusters (List.replicate param v2d.zero) none none profile
        random_engine

/-- The initial assignment of `k_medoids::partition`: the observations assigned
to the `param` seeds of `find_optimal_means`, before any medoid is recomputed. -/
def seeded_assignment (palette : List Nat) (param : Nat) (observations : List v2d) :
    Except Fault (List cluster) :=
  match k_means.find_optimal_means param observations with
  | .error e => .error e
  | .ok (optimal_means, observations) =>
    match k_means.init_clusters palette param optimal_means with
    | .error e => .error e
    | .ok clusters => k_means.assign_observations (clear_clusters clusters) observations

/-- The seeds as the specification words them: seed `i` is the first
observation, in `x`-sorted order, whose `x` is at least the horizontal midpoint
of the `i`-th of `k` equal-width strips of the range `[min x, max x]` of the
observations, or the observation of maximal `x` when there is none. -/
def strip_seeds_spec (k : Nat) (observations : List v2d) : List v2d :=
  let sorted := sort_by_x observations
  match sorted.head?, sorted.getLast? with
  | some lo, some hi =>
    let width := Int.tdiv (hi.x - lo.x) (k : Int)
    (List.range k).map (fun i =>
      match lower_bound sorted ⟨lo.x + width * (i : Int) + Int.tdiv width 2, 0⟩ with
      | some m => m
      | none => hi)
  | _, _ => []

/-- Five observations, sorted by `x`, on which recomputing the medoid makes the
clustering worse. -/
def outlier_observations : List v2d := [⟨0, 0⟩, ⟨5, 0⟩, ⟨6, 1000⟩, ⟨10, 0⟩, ⟨10, 0⟩]

end k_medoids

/-- The function `simulator::get_cluster_color` of `simulator.h`:
`VISUALLY_DISTINCT_COLORS[index % VISUALLY_DISTINCT_COLORS.size()]`. -/
def get_cluster_color (palette : List Nat) (index : Nat) : Except Fault Nat :=
  if palette.length = 0 then .error .divisionByZero
  else
    match palette[index % palette.length]? with
    | some color => .ok color
    | none => .error .indexOutOfRange

namespace k_means

/-- The distinct values of a stream of indices in the order of their first
occurrence. -/
def first_occurrences : List Nat → List Nat
  | [] => []
  | a :: l => a :: (first_occurrences l).filter (fun b => !decide (b = a))

/-- The state of the loop of `k_means::partition` after `m` completed cycles
(clear, assign, recompute), started from `clusters` and `previous_means`: a
cycle is completed when the loop condition lets it start (`converged` is
false) and the assignment leaves no cluster empty; `none` when fewer than `m`
cycles are completed. -/
def cycles (observations : List v2d) : (m : Nat) → (clusters : List cluster) →
    (previous_means : List v2d) → Option (List cluster × List v2d)
  | 0, clusters, previous_means => some (clusters, previous_means)
  | m + 1, clusters, previous_means =>
    match converged clusters previous_means,
        assign_observations (clear_clusters clusters) observations with
    | .ok false, .ok assigned =>
      match find_empty_cluster assigned with
      | some _ => none
      | none => cycles observations m (update_means assigned).1 (update_means assigned).2
    | _, _ => none

end k_means

namespace k_medoids

/-- The loop of `k_medoids::partition` together with the list `trace` of the
values that `dissimilarity(clusters)` has returned so far, one for each
completed iteration, oldest first.  The list is bookkeeping only: it has no
influence on the run. -/
def medoid_loop_traced (observations : List v2d) : (fuel : Nat) → (clusters : List cluster) →
    (previous_means : List v2d) → (current_dissimilarity previous_dissimilarity : Option Int) →
    (profile : partitioning_profile) → (random_engine : List Nat) → (trace : List Int) →
    Except Fault (result × List Int)
  | 0, _, _, _, _, _, _, _ => .error .outOfFuel
  | fuel + 1, clusters, previous_means, current_dissimilarity, previous_dissimilarity, profile,
      random_engine, trace =>
    match k_means.assign_observations (clear_clusters clusters) observations with
    | .error e => .error e
    | .ok clusters =>
      match find_empty_cluster clusters with
      | some empty =>
        match random_engine with
        | _ :: r :: rest =>
          match observations[uniform_draw (size_t_pred observations.length) r]?,
              clusters[empty]? with
          | some mean, some c =>
            medoid_loop_traced observations fuel (clusters.set empty { c with mean := mean })
              previous_means current_dissimilarity previous_dissimilarity profile rest trace
          | _, _ => .error .indexOutOfRange
        | _ => .error .outOfFuel
      | none =>
        match update_medoids clusters random_engine with
        | .error e => .error e
        | .ok (clusters, previous_means, random_engine) =>
          let profile : partitioning_profile := ⟨profile.iterations + 1⟩
          let previous_dissimilarity := current_dissimilarity
          let current := dissimilarity clusters
          if dissimilarity_ge current previous_dissimilarity then
            .ok (⟨clusters, observations, previous_means, some current, previous_dissimilarity,
              profile, random_engine⟩, trace ++ [current])
          else
            medoid_loop_traced observations fuel clusters previous_means (some current)
              previous_dissimilarity profile random_engine (trace ++ [current])

/-- The function `k_medoids::partition` together with the list of the recorded
dissimilarity values. -/
def partition_traced (palette : List Nat) (param : Nat) (observations : List v2d) (fuel : Nat)
    (random_engine : List Nat) (profile : partitioning_profile) :
    Except Fault (result × List Int) :=
  let profile := profile.reset
  match k_means.find_optimal_means param observations with
  | .error e => .error e
  | .ok (optimal_means, observations) =>
    match k_means.init_clusters palette param optimal_means with
    | .error e => .error e
    | .ok clusters =>
      medoid_loop_traced observations fuel clusters (List.replicate param v2d.zero) none none
        profile random_engine []

end k_medoids

/-- The search that the library routine `std::lower_bound` carries out on a
random-access range, with the comparator `obs.x < target.x`: the remaining
length `len` is halved until it is zero, `first` being the index of the
iterator that is returned at the end.  Each round shortens the range, so a fuel
of `len` rounds is never used up. -/
def lower_bound_loop (l : List v2d) (target : v2d) : (fuel : Nat) → (first len : Nat) → Nat
  | 0, first, _ => first
  | fuel + 1, first, len =>
    if len = 0 then first
    else
      let half := len / 2
      match l[first + half]? with
      | some obs =>
        if obs.x < target.x then
          lower_bound_loop l target fuel (first + half + 1) (len - half - 1)
        else lower_bound_loop l target fuel first half
      | none => first

/-- The index of the iterator that `std::lower_bound(l.begin(), l.end(), target,
comp)` returns by that search; `l.length` is `end()`. -/
def lower_bound_index (l : List v2d) (target : v2d) : Nat :=
  lower_bound_loop l target l.length 0 l.length

/-! ## Properties of the assignment step -/

namespace k_means

theorem push_observation_length (cs : List cluster) (i : Nat) (o : v2d) :
    (push_observation cs i o).length = cs.length := by
  induction cs generalizing i with
  | nil => rfl
  | cons c cs ih =>
    cases i with
    | zero => rfl
    | succ i => simp [push_observation, ih]

theorem closest_loop_push (o p : v2d) (cs : List cluster) (i j : Nat) (d : Option Int) (k : Nat) :
    closest_loop o (push_observation cs i p) j d k = closest_loop o cs j d k := by
  induction cs generalizing i j d k with
  | nil => rfl
  | cons c cs ih =>
    cases i with
    | zero => rfl
    | succ i =>
      simp only [push_observation, closest_loop]
      split <;> exact ih _ _ _ _

theorem closest_cluster_index_push (o p : v2d) (cs : List cluster) (i : Nat) :
    closest_cluster_index (push_observation cs i p) o = closest_cluster_index cs o :=
  closest_loop_push o p cs i 0 none 0

theorem closest_loop_range (o : v2d) (cs : List cluster) (j : Nat) (d : Option Int) (k : Nat) :
    closest_loop o cs j d k = k ∨
      (j ≤ closest_loop o cs j d k ∧ closest_loop o cs j d k < j + cs.length) := by
  induction cs generalizing j d k with
  | nil => left; rfl
  | cons c cs ih =>
    simp only [closest_loop, List.length_cons]
    split
    · rcases ih (j + 1) (some (o.euclidean_distance_squared c.mean)) j with h | h
      · right; rw [h]; omega
      · right; omega
    · rcases ih (j + 1) d k with h | h
      · left; exact h
      · right; omega

theorem closest_cluster_index_lt (cs : List cluster) (o : v2d) (h : cs ≠ []) :
    closest_cluster_index cs o < cs.length := by
  cases cs with
  | nil => exact absurd rfl h
  | cons c cs =>
    have hr := closest_loop_range o cs 1 (some (o.euclidean_distance_squared c.mean)) 0
    have he : closest_cluster_index (c :: cs) o =
        closest_loop o cs 1 (some (o.euclidean_distance_squared c.mean)) 0 := rfl
    rw [he, List.length_cons]
    omega

theorem distribute_length (full : List cluster) (obs : List v2d) (cs : List cluster) (j : Nat) :
    (distribute full obs cs j).length = cs.length := by
  induction cs generalizing j with
  | nil => rfl
  | cons c cs ih => simp [distribute, ih]

theorem distribute_nil (full cs : List cluster) (j : Nat) : distribute full [] cs j = cs := by
  induction cs generalizing j with
  | nil => rfl
  | cons c cs ih => simp [distribute, ih]

theorem distribute_congr (full full2 : List cluster) (obs : List v2d) (cs : List cluster) (j : Nat)
    (h : ∀ o, closest_cluster_index full o = closest_cluster_index full2 o) :
    distribute full obs cs j = distribute full2 obs cs j := by
  induction cs generalizing j with
  | nil => rfl
  | cons c cs ih => simp [distribute, ih, h]

/-- Observations whose closest index lies below `j` leave the clusters from
index `j` on untouched. -/
theorem distribute_cons_lt (full : List cluster) (o : v2d) (rest : List v2d) (cs : List cluster)
    (j : Nat) (h : closest_cluster_index full o < j) :
    distribute full (o :: rest) cs j = distribute full rest cs j := by
  induction cs generalizing j with
  | nil => rfl
  | cons c cs ih =>
    have hne : ¬ closest_cluster_index full o = j := by omega
    simp [distribute, List.filter_cons, hne, ih (j + 1) (by omega)]

theorem distribute_push (full : List cluster) (o : v2d) (rest : List v2d) (cs : List cluster)
    (j i : Nat) (hi : i < cs.length) (h : closest_cluster_index full o = j + i) :
    distribute full rest (push_observation cs i o) j = distribute full (o :: rest) cs j := by
  induction cs generalizing j i with
  | nil => simp at hi
  | cons c cs ih =>
    cases i with
    | zero =>
      have h0 : closest_cluster_index full o = j := by omega
      simp [distribute, push_observation, List.filter_cons, h0,
        distribute_cons_lt full o rest cs (j + 1) (by omega)]
    | succ i =>
      have hne : ¬ closest_cluster_index full o = j := by omega
      have hi2 : i < cs.length := by simpa using hi
      simp [distribute, push_observation, List.filter_cons, hne,
        ih (j + 1) i hi2 (by omega)]

/-- The result of `assign_observations` in closed form. -/
theorem assign_observations_eq (clusters : List cluster) (observations : List v2d)
    (h : clusters ≠ []) :
    assign_observations clusters observations
      = .ok (distribute clusters observations clusters 0) := by
  induction observations generalizing clusters with
  | nil => simp [assign_observations, distribute_nil]
  | cons o rest ih =>
    have hlt := closest_cluster_index_lt clusters o h
    have hne : push_observation clusters (closest_cluster_index clusters o) o ≠ [] := by
      intro hc
      have := push_observation_length clusters (closest_cluster_index clusters o) o
      rw [hc] at this
      simp at this
      omega
    simp only [assign_observations, hlt, if_true]
    rw [ih _ hne]
    rw [distribute_congr _ clusters rest _ 0 (fun p => closest_cluster_index_push p o clusters _)]
    rw [distribute_push clusters o rest clusters 0 _ hlt (by omega)]

theorem distribute_getElem? (full : List cluster) (obs : List v2d) (cs : List cluster) (j i : Nat) :
    (distribute full obs cs j)[i]? = (cs[i]?).map (fun c =>
      { c with observations :=
          c.observations ++ obs.filter (fun o => closest_cluster_index full o = j + i) }) := by
  induction cs generalizing j i with
  | nil => simp [distribute]
  | cons c cs ih =>
    cases i with
    | zero => simp [distribute]
    | succ i =>
      simp only [distribute, List.getElem?_cons_succ, ih]
      have : j + 1 + i = j + (i + 1) := by omega
      rw [this]

theorem distribute_map_mean (full : List cluster) (obs : List v2d) (cs : List cluster) (j : Nat) :
    (distribute full obs cs j).map (fun c => c.mean) = cs.map (fun c => c.mean) := by
  induction cs generalizing j with
  | nil => rfl
  | cons c cs ih => simp [distribute, ih]

end k_means

namespace k_means

theorem closest_loop_nearest (o : v2d) (cs pre : List cluster) (dk : Int) (k : Nat) (ck : cluster)
    (hk : pre[k]? = some ck) (hd : dk = o.euclidean_distance_squared ck.mean)
    (hle : ∀ (j : Nat) (c : cluster), pre[j]? = some c → dk ≤ o.euclidean_distance_squared c.mean)
    (hlt : ∀ (j : Nat) (c : cluster), j < k → pre[j]? = some c → dk < o.euclidean_distance_squared c.mean) :
    lowest_nearest (pre ++ cs) o (closest_loop o cs pre.length (some dk) k) := by
  induction cs generalizing pre dk k ck with
  | nil =>
    subst hd
    simpa [closest_loop, lowest_nearest] using ⟨ck, hk, hle, hlt⟩
  | cons c cs ih =>
    have happ : pre ++ c :: cs = (pre ++ [c]) ++ cs := by simp
    have hlen : pre.length + 1 = (pre ++ [c]).length := by simp
    have hget : ∀ j c2, (pre ++ [c])[j]? = some c2 →
        (j < pre.length ∧ pre[j]? = some c2) ∨ (j = pre.length ∧ c2 = c) := by
      intro j c2 hj
      by_cases hjl : j < pre.length
      · left
        rw [List.getElem?_append_left hjl] at hj
        exact ⟨hjl, hj⟩
      · right
        rw [List.getElem?_append_right (by omega)] at hj
        have hj0 : j - pre.length = 0 := by
          by_contra hne
          have : ([c] : List cluster)[j - pre.length]? = none := by
            apply List.getElem?_eq_none
            simp; omega
          rw [this] at hj; cases hj
        rw [hj0] at hj
        simp at hj
        exact ⟨by omega, hj.symm⟩
    simp only [closest_loop]
    rw [happ, hlen]
    by_cases hless : o.euclidean_distance_squared c.mean < dk
    · simp only [hless, decide_True, if_true]
      refine ih (pre ++ [c]) (o.euclidean_distance_squared c.mean) pre.length c ?_ rfl ?_ ?_
      · simp
      · intro j c2 hj
        rcases hget j c2 hj with ⟨_, hp⟩ | ⟨_, hc⟩
        · have := hle j c2 hp; omega
        · rw [hc]
      · intro j c2 hjk hj
        rcases hget j c2 hj with ⟨_, hp⟩ | ⟨hjl, _⟩
        · have := hle j c2 hp; omega
        · omega
    · simp only [hless, decide_False, if_false, Bool.false_eq_true]
      have hkl : k < pre.length := by
        by_contra hge
        rw [List.getElem?_eq_none (by omega)] at hk
        cases hk
      refine ih (pre ++ [c]) dk k ck ?_ hd ?_ ?_
      · rw [List.getElem?_append_left hkl]; exact hk
      · intro j c2 hj
        rcases hget j c2 hj with ⟨_, hp⟩ | ⟨_, hc⟩
        · exact hle j c2 hp
        · rw [hc]; omega
      · intro j c2 hjk hj
        rcases hget j c2 hj with ⟨_, hp⟩ | ⟨hjl, _⟩
        · exact hlt j c2 hjk hp
        · omega

theorem closest_cluster_index_nearest (clusters : List cluster) (o : v2d) (h : clusters ≠ []) :
    lowest_nearest clusters o (closest_cluster_index clusters o) := by
  cases clusters with
  | nil => exact absurd rfl h
  | cons c cs =>
    have he : closest_cluster_index (c :: cs) o =
        closest_loop o cs ([c] : List cluster).length (some (o.euclidean_distance_squared c.mean)) 0 :=
      rfl
    rw [he]
    have := closest_loop_nearest o cs [c] (o.euclidean_distance_squared c.mean) 0 c rfl rfl
      (by
        intro j c2 hj
        cases j with
        | zero => simp at hj; rw [hj]
        | succ j => simp at hj)
      (by intro j c2 hj; omega)
    simpa using this

theorem push_observation_perm (cs : List cluster) (i : Nat) (o : v2d) (hi : i < cs.length) :
    (((push_observation cs i o).map (fun c => c.observations)).flatten).Perm
      (o :: (cs.map (fun c => c.observations)).flatten) := by
  induction cs generalizing i with
  | nil => simp at hi
  | cons c cs ih =>
    cases i with
    | zero =>
      simp only [push_observation, List.map_cons, List.flatten_cons, List.append_assoc,
        List.singleton_append]
      exact List.perm_middle
    | succ i =>
      have hi2 : i < cs.length := by simpa using hi
      simp only [push_observation, List.map_cons, List.flatten_cons]
      exact ((ih i hi2).append_left c.observations).trans List.perm_middle

theorem assign_observations_perm (observations : List v2d) (clusters result : List cluster)
    (h : assign_observations clusters observations = .ok result) :
    ((result.map (fun c => c.observations)).flatten).Perm
      ((clusters.map (fun c => c.observations)).flatten ++ observations) := by
  induction observations generalizing clusters with
  | nil =>
    simp only [assign_observations, Except.ok.injEq] at h
    subst h
    simp
  | cons o rest ih =>
    simp only [assign_observations] at h
    split at h
    · rename_i hlt
      exact (ih _ h).trans (((push_observation_perm clusters _ o hlt).append_right rest).trans
        (List.perm_middle.symm))
    · cases h

end k_means

namespace k_means

theorem flatten_observations_of_cleared (clusters : List cluster)
    (hclear : ∀ c ∈ clusters, c.observations = []) :
    (clusters.map (fun c => c.observations)).flatten = [] := by
  induction clusters with
  | nil => rfl
  | cons c cs ih =>
    have h1 : c.observations = [] := hclear c (List.mem_cons_self _ _)
    have h2 := ih (fun d hd => hclear d (List.mem_cons_of_mem _ hd))
    simp [h1, h2]

/-- C1 (assignment completeness): on a non-empty vector of cleared clusters,
`assign_observations` returns, keeps the number of clusters, and sends every
observation to exactly one cluster index `target o` in range: the collection of
cluster `j` is the list of the observations with `target o = j`, in input
order.  Hence the collections together are a rearrangement of the observation
list and their sizes sum to the number of observations. -/
theorem assign_observations_complete (clusters : List cluster) (observations : List v2d)
    (hne : clusters ≠ []) (hclear : ∀ c ∈ clusters, c.observations = []) :
    ∃ result, assign_observations clusters observations = .ok result ∧
      result.length = clusters.length ∧
      (∃ target : v2d → Nat,
        (∀ o ∈ observations, target o < result.length) ∧
        ∀ (j : Nat) (r : cluster), result[j]? = some r →
          r.observations = observations.filter (fun o => target o = j)) ∧
      ((result.map (fun c => c.observations)).flatten).Perm observations ∧
      (result.map (fun c => c.observations.length)).sum = observations.length := by
  have heq := assign_observations_eq clusters observations hne
  have hperm := assign_observations_perm observations clusters _ heq
  rw [flatten_observations_of_cleared clusters hclear, List.nil_append] at hperm
  refine ⟨_, heq, distribute_length _ _ _ _, ⟨closest_cluster_index clusters, ?_, ?_⟩, hperm, ?_⟩
  · intro o _
    rw [distribute_length]
    exact closest_cluster_index_lt clusters o hne
  · intro j r hr
    rw [distribute_getElem?] at hr
    cases hc : clusters[j]? with
    | none => rw [hc] at hr; cases hr
    | some c =>
      rw [hc] at hr
      simp only [Option.map_some', Option.some.injEq] at hr
      subst hr
      have h1 : c.observations = [] := hclear c (List.getElem?_mem hc)
      simp [h1]
  · have hl := hperm.length_eq
    rw [List.length_flatten, List.map_map] at hl
    exact hl

/-- Witness of C1 on the scenario: two cleared clusters, four observations. -/
theorem assign_observations_complete_witness :
    (scenario_clusters ≠ [] ∧ ∀ c ∈ scenario_clusters, c.observations = []) ∧
    ∃ result, assign_observations scenario_clusters scenario_observations = .ok result ∧
      result.length = scenario_clusters.length ∧
      (∃ target : v2d → Nat,
        (∀ o ∈ scenario_observations, target o < result.length) ∧
        ∀ (j : Nat) (r : cluster), result[j]? = some r →
          r.observations = scenario_observations.filter (fun o => target o = j)) ∧
      ((result.map (fun c => c.observations)).flatten).Perm scenario_observations ∧
      (result.map (fun c => c.observations.length)).sum = scenario_observations.length :=
  ⟨⟨by decide, by decide⟩,
    assign_observations_complete scenario_clusters scenario_observations (by decide) (by decide)⟩

/-- C2 (nearest assignment with lowest-index tie-break): on a non-empty cluster
vector `assign_observations` returns, leaves the means as they are, and appends
to cluster `k` exactly the observations `o` with `target o = k`, where
`target o` is the lowest index among the clusters whose mean is at minimal
squared distance from `o`: the distance to that mean is `≤` the distance to
every mean and `<` the distance to every mean of lower index. -/
theorem assign_observations_nearest (clusters : List cluster) (observations : List v2d)
    (hne : clusters ≠ []) :
    ∃ result, assign_observations clusters observations = .ok result ∧
      result.map (fun c => c.mean) = clusters.map (fun c => c.mean) ∧
      ∃ target : v2d → Nat,
        (∀ o ∈ observations, lowest_nearest result o (target o)) ∧
        ∀ (k : Nat) (c r : cluster), clusters[k]? = some c → result[k]? = some r →
          r.observations = c.observations ++ observations.filter (fun o => target o = k) := by
  have heq := assign_observations_eq clusters observations hne
  refine ⟨_, heq, distribute_map_mean _ _ _ _, closest_cluster_index clusters, ?_, ?_⟩
  · intro o _
    obtain ⟨ck, hk, hle, hlt⟩ := closest_cluster_index_nearest clusters o hne
    have hget : ∀ (j : Nat) (r : cluster),
        (distribute clusters observations clusters 0)[j]? = some r →
        ∃ c, clusters[j]? = some c ∧ r.mean = c.mean := by
      intro j r hr
      rw [distribute_getElem?] at hr
      cases hc : clusters[j]? with
      | none => rw [hc] at hr; cases hr
      | some c =>
        rw [hc] at hr
        simp only [Option.map_some', Option.some.injEq] at hr
        exact ⟨c, rfl, by rw [← hr]⟩
    refine ⟨{ ck with observations := ck.observations ++
        observations.filter (fun p => closest_cluster_index clusters p =
          0 + closest_cluster_index clusters o) }, ?_, ?_, ?_⟩
    · rw [distribute_getElem?, hk]; rfl
    · intro j r hr
      obtain ⟨c, hc, hm⟩ := hget j r hr
      rw [hm]
      exact hle j c hc
    · intro j r hjk hr
      obtain ⟨c, hc, hm⟩ := hget j r hr
      rw [hm]
      exact hlt j c hjk hc
  · intro k c r hc hr
    rw [distribute_getElem?, hc] at hr
    simp only [Option.map_some', Option.some.injEq] at hr
    subst hr
    simp

/-- Witness of C2 on the scenario. -/
theorem assign_observations_nearest_witness :
    scenario_clusters ≠ [] ∧
    ∃ result, assign_observations scenario_clusters scenario_observations = .ok result ∧
      result.map (fun c => c.mean) = scenario_clusters.map (fun c => c.mean) ∧
      ∃ target : v2d → Nat,
        (∀ o ∈ scenario_observations, lowest_nearest result o (target o)) ∧
        ∀ (k : Nat) (c r : cluster), scenario_clusters[k]? = some c → result[k]? = some r →
          r.observations =
            c.observations ++ scenario_observations.filter (fun o => target o = k) :=
  ⟨by decide, assign_observations_nearest scenario_clusters scenario_observations (by decide)⟩

end k_means

/-! ## Centroid and convergence test -/

namespace k_means

theorem foldl_add_eq (l : List v2d) (acc : v2d) :
    l.foldl v2d.add acc = ⟨acc.x + (l.map (fun o => o.x)).sum, acc.y + (l.map (fun o => o.y)).sum⟩ := by
  induction l generalizing acc with
  | nil => simp
  | cons o l ih =>
    simp only [List.foldl_cons, ih, v2d.add, List.map_cons, List.sum_cons]
    congr 1 <;> ring

/-- C6 (centroid): `compute_centroid` returns the coordinate sums of the assigned
observations divided, with truncating integer division, by their number; for a
cluster without observations it returns the zero vector; the divisor it uses is
never zero. -/
theorem compute_centroid_spec (c : cluster) :
    compute_centroid c =
      (if c.observations.length = 0 then ⟨0, 0⟩
       else ⟨Int.tdiv (c.observations.map (fun o => o.x)).sum c.observations.length,
             Int.tdiv (c.observations.map (fun o => o.y)).sum c.observations.length⟩) ∧
    centroid_divisor c ≠ 0 := by
  constructor
  · simp only [compute_centroid, foldl_add_eq, v2d.zero, v2d.div, centroid_divisor, zero_add]
    split
    · rename_i h
      have h0 : c.observations = [] := List.length_eq_zero.mp h
      simp [h0]
    · rename_i h
      have hpos : (1 : Int) ≤ (c.observations.length : Int) := by omega
      rw [max_eq_left hpos]
  · simp only [centroid_divisor]
    have : (1 : Int) ≤ max (c.observations.length : Int) 1 := le_max_right _ _
    omega

theorem converged_eq (clusters : List cluster) (previous_means : List v2d)
    (hlen : clusters.length = previous_means.length) :
    converged clusters previous_means =
      .ok (decide (clusters.map (fun c => c.mean) = previous_means)) := by
  induction clusters generalizing previous_means with
  | nil =>
    cases previous_means with
    | nil => simp [converged]
    | cons p ps => simp at hlen
  | cons c cs ih =>
    cases previous_means with
    | nil => simp at hlen
    | cons p ps =>
      have hl : cs.length = ps.length := by simpa using hlen
      simp only [converged, List.map_cons, List.cons.injEq]
      by_cases hm : c.mean = p
      · simp [hm, ih ps hl]
      · simp [hm]

/-- C7 (convergence test): for cluster and previous-mean vectors of the same
length `converged` returns a boolean, which is `true` if and only if at every
index the mean of the cluster equals the previous mean at that index; for an
empty cluster vector it is `true`. -/
theorem converged_iff (clusters : List cluster) (previous_means : List v2d)
    (hlen : clusters.length = previous_means.length) :
    (∃ b, converged clusters previous_means = .ok b) ∧
    (converged clusters previous_means = .ok true ↔
      ∀ (i : Nat) (c : cluster) (p : v2d),
        clusters[i]? = some c → previous_means[i]? = some p → c.mean = p) ∧
    converged [] previous_means = .ok true := by
  refine ⟨⟨_, converged_eq clusters previous_means hlen⟩, ?_, by cases previous_means <;> rfl⟩
  rw [converged_eq clusters previous_means hlen]
  simp only [Except.ok.injEq, decide_eq_true_eq]
  constructor
  · intro h i c p hc hp
    rw [← h, List.getElem?_map, hc] at hp
    simpa using hp
  · intro h
    apply List.ext_getElem?
    intro i
    rw [List.getElem?_map]
    cases hc : clusters[i]? with
    | none =>
      have hi : clusters.length ≤ i := by
        by_contra hlt
        rw [List.getElem?_eq_getElem (by omega)] at hc
        cases hc
      rw [List.getElem?_eq_none (by omega)]
      rfl
    | some c =>
      have hi : i < clusters.length := by
        by_contra hge
        rw [List.getElem?_eq_none (by omega)] at hc
        cases hc
      have hp : previous_means[i]? = some (previous_means[i]) :=
        List.getElem?_eq_getElem (by omega)
      rw [hp]
      simp [h i c _ hc hp]

/-- Witness of C7: the scenario clusters against their own means. -/
theorem converged_iff_witness :
    scenario_clusters.length = ([⟨0, 0⟩, ⟨10, 0⟩] : List v2d).length ∧
    ((∃ b, converged scenario_clusters [⟨0, 0⟩, ⟨10, 0⟩] = .ok b) ∧
    (converged scenario_clusters [⟨0, 0⟩, ⟨10, 0⟩] = .ok true ↔
      ∀ (i : Nat) (c : cluster) (p : v2d),
        scenario_clusters[i]? = some c → ([⟨0, 0⟩, ⟨10, 0⟩] : List v2d)[i]? = some p →
          c.mean = p) ∧
    converged [] ([⟨0, 0⟩, ⟨10, 0⟩] : List v2d) = .ok true) :=
  ⟨by decide, converged_iff scenario_clusters [⟨0, 0⟩, ⟨10, 0⟩] (by decide)⟩

end k_means

/-! ## The k-means run -/

namespace k_means

theorem converged_mean_mem (clusters : List cluster) (previous_means : List v2d)
    (h : converged clusters previous_means = .ok true) :
    ∀ c ∈ clusters, c.mean ∈ previous_means := by
  induction clusters generalizing previous_means with
  | nil => intro c hc; cases hc
  | cons c cs ih =>
    cases previous_means with
    | nil => simp [converged] at h
    | cons p ps =>
      simp only [converged] at h
      by_cases hm : c.mean = p
      · simp only [hm, ne_eq, not_true_eq_false, if_false] at h
        intro d hd
        rcases List.mem_cons.mp hd with hd | hd
        · rw [hd, hm]; exact List.mem_cons_self _ _
        · exact List.mem_cons_of_mem _ (ih ps h d hd)
      · simp [hm] at h

theorem compute_centroid_of_empty (c : cluster) (h : c.observations = []) :
    compute_centroid c = v2d.zero := by
  simp [compute_centroid, centroid_divisor, h, v2d.div, v2d.zero]

theorem seed_loop_observations (palette : List Nat) (observations : List v2d) (param hi : Nat)
    (random_engine : List Nat) (i : Nat) (clusters : List cluster) (visited : List Nat)
    (seeded : List cluster) (rest : List Nat)
    (h : seed_loop palette observations param hi random_engine i clusters visited
      = .ok (seeded, rest))
    (hempty : ∀ c ∈ clusters, c.observations = []) :
    ∀ c ∈ seeded, c.observations = [] := by
  induction random_engine generalizing i clusters visited with
  | nil =>
    simp only [seed_loop] at h
    split at h
    · simp only [Except.ok.injEq, Prod.mk.injEq] at h
      rw [← h.1]; exact hempty
    · cases h
  | cons r rs ih =>
    simp only [seed_loop] at h
    split at h
    · simp only [Except.ok.injEq, Prod.mk.injEq] at h
      rw [← h.1]; exact hempty
    · split at h
      · exact ih _ _ _ h hempty
      · split at h
        · rename_i mean color c0 _ _ hc0
          refine ih _ _ _ h ?_
          intro c hc
          rcases List.mem_or_eq_of_mem_set hc with hc | hc
          · exact hempty c hc
          · rw [hc]
            exact hempty c0 (List.getElem?_mem hc0)
        · cases h

theorem lloyd_loop_spec (observations : List v2d) (fuel : Nat) (clusters : List cluster)
    (previous_means : List v2d) (profile : partitioning_profile)
    (cs : List cluster) (pm : List v2d) (pf : partitioning_profile)
    (h : lloyd_loop observations fuel clusters previous_means profile = .ok (.finished cs pm pf))
    (hinit : converged clusters previous_means = .ok true →
      ∀ c ∈ clusters, compute_centroid c = c.mean) :
    converged cs pm = .ok true ∧ ∀ c ∈ cs, compute_centroid c = c.mean := by
  induction fuel generalizing clusters previous_means profile with
  | zero => simp [lloyd_loop] at h
  | succ fuel ih =>
    simp only [lloyd_loop] at h
    split at h
    · cases h
    · rename_i hconv
      simp only [Except.ok.injEq, attempt.finished.injEq] at h
      obtain ⟨h1, h2, _⟩ := h
      subst h1 h2
      exact ⟨hconv, hinit hconv⟩
    · split at h
      · cases h
      · split at h
        · cases h
        · refine ih _ _ _ h ?_
          intro _ c hc
          simp only [update_means, List.mem_map] at hc
          obtain ⟨d, _, hd⟩ := hc
          rw [← hd]
          rfl

/-- C3 (state at return): whenever `k_means::partition` returns, also after
restarts caused by an empty cluster, `converged(clusters, previous_means)` is
true for the returned clusters and the final `previous_means`, and
`compute_centroid` of every returned cluster is that cluster's stored mean. -/
theorem partition_returns_converged (palette : List Nat) (param : Nat) (observations : List v2d)
    (fuel : Nat) (random_engine : List Nat) (profile : partitioning_profile) (r : result)
    (h : partition palette param observations fuel random_engine profile = .ok r) :
    converged r.clusters r.previous_means = .ok true ∧
      ∀ c ∈ r.clusters, compute_centroid c = c.mean := by
  induction fuel generalizing random_engine profile with
  | zero => simp [partition] at h
  | succ fuel ih =>
    simp only [partition] at h
    split at h
    · cases h
    · rename_i seeded rest hseed
      split at h
      · cases h
      · rename_i cs pm pf hloop
        simp only [Except.ok.injEq] at h
        subst h
        have hempty := seed_loop_observations _ _ _ _ _ _ _ _ _ _ hseed
          (by
            intro c hc
            rw [List.eq_of_mem_replicate hc]
            rfl)
        exact lloyd_loop_spec observations fuel seeded _ _ cs pm pf hloop
          (by
            intro hconv c hc
            have hm := converged_mean_mem _ _ hconv c hc
            rw [List.eq_of_mem_replicate hm]
            exact compute_centroid_of_empty c (hempty c hc))
      · exact ih _ _ h

/-- Witness of C3: the scenario with seed indices `0` and `1`, which returns
after two iterations. -/
theorem partition_returns_converged_witness :
    partition [1, 2] 2 scenario_observations 4 [0, 1] ⟨0⟩ =
      .ok ⟨[⟨⟨5, 0⟩, 1, [⟨0, 0⟩, ⟨10, 0⟩]⟩, ⟨⟨5, 1⟩, 2, [⟨0, 1⟩, ⟨10, 1⟩]⟩],
        [⟨5, 0⟩, ⟨5, 1⟩], ⟨2⟩, []⟩ ∧
    (converged [⟨⟨5, 0⟩, 1, [⟨0, 0⟩, ⟨10, 0⟩]⟩, ⟨⟨5, 1⟩, 2, [⟨0, 1⟩, ⟨10, 1⟩]⟩]
        [⟨5, 0⟩, ⟨5, 1⟩] = .ok true ∧
      ∀ c ∈ ([⟨⟨5, 0⟩, 1, [⟨0, 0⟩, ⟨10, 0⟩]⟩, ⟨⟨5, 1⟩, 2, [⟨0, 1⟩, ⟨10, 1⟩]⟩] : List cluster),
        compute_centroid c = c.mean) :=
  ⟨rfl, partition_returns_converged [1, 2] 2 scenario_observations 4 [0, 1] ⟨0⟩ _ rfl⟩

/-- C4 (failing input): with the single observation `(0,0)` and `K = 1` the seed
equals the zero-initialised `previous_means`, the loop body never runs, and the
returned cluster holds no observation: the sizes sum to `0`, not to `1`, and the
iteration count is `0`. -/
theorem partition_zero_seed_skips_loop (color : Nat) (palette : List Nat) (fuel : Nat) (r0 : Nat)
    (rest : List Nat) (profile : partitioning_profile) :
    partition (color :: palette) 1 [⟨0, 0⟩] (fuel + 2) (r0 :: rest) profile =
      .ok ⟨[⟨⟨0, 0⟩, color, []⟩], [⟨0, 0⟩], ⟨0⟩, rest⟩ ∧
    (([⟨⟨0, 0⟩, color, []⟩] : List cluster).map (fun c => c.observations.length)).sum = 0 := by
  constructor
  · have hd : uniform_draw (size_t_pred 1) r0 = 0 := by
      have h1 : size_t_pred 1 = 0 := by decide
      rw [h1]
      simp [uniform_draw, Nat.mod_one]
    cases rest with
    | nil =>
      simp [partition, seed_loop, hd, cluster.init, lloyd_loop, converged, v2d.zero,
        partitioning_profile.reset]
    | cons r1 rest =>
      simp [partition, seed_loop, hd, cluster.init, lloyd_loop, converged, v2d.zero,
        partitioning_profile.reset]
  · rfl

end k_means

namespace k_means

/-- C5 (counterexample): with the seed indices `0` and `1`, the points `(0,0)`
and `(0,1)`, the run on the scenario returns, and what it returns is not the
split by `x`, in either order. -/
theorem scenario_seeds_0_1_not_split :
    ∃ r, partition [1, 2] 2 scenario_observations 4 [0, 1] ⟨0⟩ = .ok r ∧
      ¬ (outcome r.clusters = scenario_split ∨ outcome r.clusters = scenario_split.reverse) :=
  ⟨_, rfl, by decide⟩

/-- C5 (amended): on the scenario with `K = 2`, for every pair of distinct seed
indices the run returns after at most two iterations.  When the two seeds have
different `x` it returns the split by `x` with the means `(0,0)` and `(10,0)`;
when they have the same `x` (the index pairs `0,1` and `2,3`) it returns the
split by `y` with the means `(5,0)` and `(5,1)`; in both cases in some order. -/
theorem scenario_all_seed_pairs (i j : Fin 4) (hij : i ≠ j) :
    ∃ r, partition [1, 2] 2 scenario_observations 4 [i.val, j.val] ⟨0⟩ = .ok r ∧
      r.profile.iterations ≤ 2 ∧
      (if i.val / 2 = j.val / 2 then
        outcome r.clusters = scenario_stripes ∨ outcome r.clusters = scenario_stripes.reverse
      else
        outcome r.clusters = scenario_split ∨ outcome r.clusters = scenario_split.reverse) := by
  fin_cases i <;> fin_cases j <;>
    first
    | exact absurd rfl hij
    | exact ⟨_, rfl, by decide, by decide⟩

/-- Witness of the amended C5: the seed indices `0` and `2`. -/
theorem scenario_all_seed_pairs_witness :
    (0 : Fin 4) ≠ 2 ∧
    ∃ r, partition [1, 2] 2 scenario_observations 4 [(0 : Fin 4).val, (2 : Fin 4).val] ⟨0⟩ = .ok r ∧
      r.profile.iterations ≤ 2 ∧
      (if (0 : Fin 4).val / 2 = (2 : Fin 4).val / 2 then
        outcome r.clusters = scenario_stripes ∨ outcome r.clusters = scenario_stripes.reverse
      else
        outcome r.clusters = scenario_split ∨ outcome r.clusters = scenario_split.reverse) :=
  ⟨by decide, scenario_all_seed_pairs 0 2 (by decide)⟩

end k_means

/-! ## The k-medoids run -/

namespace k_medoids

theorem medoid_loop_spec (observations : List v2d) (fuel : Nat) (clusters : List cluster)
    (previous_means : List v2d) (current previous : Option Int) (profile : partitioning_profile)
    (random_engine : List Nat) (r : result)
    (h : medoid_loop observations fuel clusters previous_means current previous profile
      random_engine = .ok r) :
    r.observations = observations ∧
    r.current_dissimilarity = some (dissimilarity r.clusters) ∧
    ∃ p, r.previous_dissimilarity = some p ∧ p ≤ dissimilarity r.clusters := by
  induction fuel generalizing clusters previous_means current previous profile random_engine with
  | zero => simp [medoid_loop] at h
  | succ fuel ih =>
    simp only [medoid_loop] at h
    split at h
    · cases h
    · split at h
      · split at h
        · split at h
          · exact ih _ _ _ _ _ _ h
          · cases h
        · cases h
      · split at h
        · cases h
        · split at h
          · rename_i hge
            simp only [Except.ok.injEq] at h
            subst h
            refine ⟨rfl, rfl, ?_⟩
            cases current with
            | none => simp [dissimilarity_ge] at hge
            | some p => exact ⟨p, rfl, by simpa [dissimilarity_ge] using hge⟩
          · exact ih _ _ _ _ _ _ h

/-- C8 (counterexample): on five observations with one outlier and `K = 1` the
run returns clusters whose dissimilarity, `4000069`, exceeds the dissimilarity
`1000076` of the initial assignment to the seed of `find_optimal_means`. -/
theorem partition_worse_than_seeded :
    ∃ r seeded, partition [1] 1 outlier_observations 2 [] ⟨0⟩ = .ok r ∧
      seeded_assignment [1] 1 outlier_observations = .ok seeded ∧
      dissimilarity seeded = 1000076 ∧ dissimilarity r.clusters = 4000069 ∧
      ¬ dissimilarity r.clusters ≤ dissimilarity seeded :=
  ⟨_, _, rfl, rfl, by decide, by decide, by decide⟩

/-- C8 (amended): whenever `k_medoids::partition` returns, the dissimilarity of
the returned clusters is the last value recorded, and it is not smaller than
the value recorded one iteration earlier, which exists: the run stops at the
first iteration that does not improve and returns the clusters of that
iteration. -/
theorem partition_returns_first_non_improvement (palette : List Nat) (param : Nat)
    (observations : List v2d) (fuel : Nat) (random_engine : List Nat)
    (profile : partitioning_profile) (r : result)
    (h : partition palette param observations fuel random_engine profile = .ok r) :
    r.current_dissimilarity = some (dissimilarity r.clusters) ∧
    ∃ p, r.previous_dissimilarity = some p ∧ p ≤ dissimilarity r.clusters := by
  simp only [partition] at h
  split at h
  · cases h
  · split at h
    · cases h
    · exact (medoid_loop_spec _ _ _ _ _ _ _ _ r h).2

/-- Witness of the amended C8: the run on the five observations. -/
theorem partition_returns_first_non_improvement_witness :
    partition [1] 1 outlier_observations 2 [] ⟨0⟩ =
      .ok ⟨[⟨⟨6, 1000⟩, 1, outlier_observations⟩], outlier_observations, [⟨6, 1000⟩],
        some 4000069, some 4000069, ⟨2⟩, []⟩ ∧
    (some (4000069 : Int) = some (dissimilarity [⟨⟨6, 1000⟩, 1, outlier_observations⟩]) ∧
    ∃ p, some (4000069 : Int) = some p ∧
      p ≤ dissimilarity [⟨⟨6, 1000⟩, 1, outlier_observations⟩]) :=
  ⟨rfl, partition_returns_first_non_improvement [1] 1 outlier_observations 2 [] ⟨0⟩ _ rfl⟩

/-- C9 (failing input): for the observations `(100,0)` and `(200,0)` and `K = 2`
the code returns the seeds `(100,0)` and `(200,0)`, because its bounding box
starts at the zero-initialised origin (strips of `[0, 200]`, midpoints `50` and
`150`); the strips of the range `[100, 200]` have the midpoints `125` and
`175`, which give the seeds `(200,0)` and `(200,0)`. -/
theorem find_optimal_means_anchored_at_origin :
    k_means.find_optimal_means 2 [⟨100, 0⟩, ⟨200, 0⟩] =
      .ok ([⟨100, 0⟩, ⟨200, 0⟩], [⟨100, 0⟩, ⟨200, 0⟩]) ∧
    strip_seeds_spec 2 [⟨100, 0⟩, ⟨200, 0⟩] = [⟨200, 0⟩, ⟨200, 0⟩] ∧
    k_means.find_optimal_means 2 [⟨100, 0⟩, ⟨200, 0⟩] ≠
      .ok (strip_seeds_spec 2 [⟨100, 0⟩, ⟨200, 0⟩], [⟨100, 0⟩, ⟨200, 0⟩]) := by
  refine ⟨rfl, rfl, ?_⟩
  intro h
  have h2 : k_means.find_optimal_means 2 [⟨100, 0⟩, ⟨200, 0⟩] =
      .ok ([⟨100, 0⟩, ⟨200, 0⟩], [⟨100, 0⟩, ⟨200, 0⟩]) := rfl
  rw [h2] at h
  have h3 : strip_seeds_spec 2 [⟨100, 0⟩, ⟨200, 0⟩] = [⟨200, 0⟩, ⟨200, 0⟩] := rfl
  rw [h3] at h
  simp only [Except.ok.injEq, Prod.mk.injEq] at h
  exact absurd h.1 (by decide)

theorem sort_by_x_sorted (observations : List v2d) :
    (sort_by_x observations).Sorted (fun a b => a.x ≤ b.x) := by
  haveI : IsTotal v2d (fun a b => a.x ≤ b.x) := ⟨fun a b => le_total a.x b.x⟩
  haveI : IsTrans v2d (fun a b => a.x ≤ b.x) := ⟨fun _ _ _ hab hbc => le_trans hab hbc⟩
  exact List.sorted_insertionSort _ observations

theorem find_optimal_means_observations (k : Nat) (observations : List v2d) (means after : List v2d)
    (h : k_means.find_optimal_means k observations = .ok (means, after)) :
    after = sort_by_x observations := by
  simp only [k_means.find_optimal_means] at h
  split at h
  · cases h
  · split at h
    · cases h
    · simp only [Except.ok.injEq, Prod.mk.injEq] at h
      exact h.2.symm

/-- C10 (counterexample): `find_optimal_means` with `K = 1` on the sequence
`(2,0), (1,0)` leaves the caller's sequence as `(1,0), (2,0)`. -/
theorem find_optimal_means_reorders :
    ∃ means after, k_means.find_optimal_means 1 [⟨2, 0⟩, ⟨1, 0⟩] = .ok (means, after) ∧
      after ≠ [⟨2, 0⟩, ⟨1, 0⟩] :=
  ⟨_, _, rfl, by decide⟩

/-- C10 (amended): the seeding step sorts the caller's observation sequence in
place.  Whenever `k_medoids::partition` returns, the sequence is the one that
`find_optimal_means` left: it has the same elements as before, each as often
as before, in non-decreasing order of `x`. -/
theorem partition_sorts_observations (palette : List Nat) (param : Nat)
    (observations : List v2d) (fuel : Nat) (random_engine : List Nat)
    (profile : partitioning_profile) (r : result)
    (h : partition palette param observations fuel random_engine profile = .ok r) :
    (∃ means, k_means.find_optimal_means param observations = .ok (means, r.observations)) ∧
    r.observations.Perm observations ∧
    r.observations.Sorted (fun a b => a.x ≤ b.x) := by
  simp only [partition] at h
  split at h
  · cases h
  · rename_i means after hfind
    split at h
    · cases h
    · have hobs := (medoid_loop_spec _ _ _ _ _ _ _ _ r h).1
      have hafter := find_optimal_means_observations _ _ _ _ hfind
      rw [hobs]
      refine ⟨⟨means, hfind⟩, ?_, ?_⟩
      · rw [hafter]; exact List.perm_insertionSort _ observations
      · rw [hafter]; exact sort_by_x_sorted observations

/-- Witness of the amended C10: two observations in decreasing order of `x`. -/
theorem partition_sorts_observations_witness :
    partition [1] 1 [⟨2, 0⟩, ⟨1, 0⟩] 2 [] ⟨0⟩ =
      .ok ⟨[⟨⟨1, 0⟩, 1, [⟨1, 0⟩, ⟨2, 0⟩]⟩], [⟨1, 0⟩, ⟨2, 0⟩], [⟨1, 0⟩],
        some 1, some 1, ⟨2⟩, []⟩ ∧
    ((∃ means, k_means.find_optimal_means 1 [⟨2, 0⟩, ⟨1, 0⟩] = .ok (means, [⟨1, 0⟩, ⟨2, 0⟩])) ∧
    ([⟨1, 0⟩, ⟨2, 0⟩] : List v2d).Perm [⟨2, 0⟩, ⟨1, 0⟩] ∧
    ([⟨1, 0⟩, ⟨2, 0⟩] : List v2d).Sorted (fun a b => a.x ≤ b.x)) :=
  ⟨rfl, partition_sorts_observations [1] 1 [⟨2, 0⟩, ⟨1, 0⟩] 2 [] ⟨0⟩ _ rfl⟩

end k_medoids

/-! ## Colours -/

namespace k_means

theorem init_clusters_loop_overrun (palette : List Nat) (remaining i : Nat) (means : List v2d)
    (h : palette.length < i + remaining) (hi : i ≤ palette.length) :
    init_clusters_loop palette remaining i means = .error .indexOutOfRange := by
  induction remaining generalizing i with
  | zero => omega
  | succ remaining ih =>
    simp only [init_clusters_loop]
    split
    · rename_i mean color hm hc
      have hlt : i < palette.length := by
        by_contra hge
        rw [List.getElem?_eq_none (by omega)] at hc
        cases hc
      rw [ih (i + 1) (by omega) (by omega)]
    · rfl

/-- C11 (failing input): with a palette of one colour and `K = 2` both
`init_clusters` and the initialisation of `k_means::partition` read
`VISUALLY_DISTINCT_COLORS[1]` past the end of the palette, whereas
`get_cluster_color` reduces the index modulo the palette size and yields the
colour.  In general `init_clusters` reads past the end whenever `K` exceeds
the palette size. -/
theorem init_clusters_palette_overrun (palette : List Nat) (extra : Nat) (means : List v2d) :
    init_clusters palette (palette.length + 1 + extra) means = .error .indexOutOfRange ∧
    init_clusters [7] 2 [⟨0, 0⟩, ⟨1, 1⟩] = .error .indexOutOfRange ∧
    partition [7] 2 [⟨0, 0⟩, ⟨1, 1⟩] 3 [0, 1] ⟨0⟩ = .error .indexOutOfRange ∧
    get_cluster_color [7] 1 = .ok 7 :=
  ⟨init_clusters_loop_overrun palette _ 0 means (by omega) (by omega), rfl, rfl, rfl⟩

end k_means

/-! ## Degenerate inputs and missing validation -/

namespace k_means

theorem find_empty_cluster_none (clusters : List cluster) (h : find_empty_cluster clusters = none) :
    ∀ c ∈ clusters, c.observations ≠ [] := by
  induction clusters with
  | nil => intro c hc; cases hc
  | cons c cs ih =>
    simp only [find_empty_cluster] at h
    split at h
    · cases h
    · rename_i hlen
      have hcs : find_empty_cluster cs = none := by
        cases hf : find_empty_cluster cs with
        | none => rfl
        | some i => rw [hf] at h; cases h
      intro d hd
      rcases List.mem_cons.mp hd with hd | hd
      · rw [hd]
        intro hnil
        exact hlen (by rw [hnil]; rfl)
      · exact ih hcs d hd

theorem clear_clusters_length (clusters : List cluster) :
    (clear_clusters clusters).length = clusters.length := by
  simp [clear_clusters]

theorem clear_clusters_observations (clusters : List cluster) :
    ∀ c ∈ clear_clusters clusters, c.observations = [] := by
  intro c hc
  simp only [clear_clusters, List.mem_map] at hc
  obtain ⟨d, _, hd⟩ := hc
  rw [← hd]

theorem assign_observations_length (observations : List v2d) (clusters result : List cluster)
    (h : assign_observations clusters observations = .ok result) :
    result.length = clusters.length := by
  induction observations generalizing clusters with
  | nil =>
    simp only [assign_observations, Except.ok.injEq] at h
    rw [h]
  | cons o rest ih =>
    simp only [assign_observations] at h
    split at h
    · rw [ih _ h, push_observation_length]
    · cases h

theorem nodup_bounded_length (l : List Nat) (n : Nat) (hnd : l.Nodup) (hlt : ∀ v ∈ l, v < n) :
    l.length ≤ n := by
  have hsub : l ⊆ List.range n := fun v hv => List.mem_range.mpr (hlt v hv)
  have := (List.subperm_of_subset hnd hsub).length_le
  simpa using this

/-- An assignment that leaves no cluster empty needs at least as many distinct
observation locations as there are clusters. -/
theorem no_empty_cluster_distinct (clusters result : List cluster) (observations : List v2d)
    (h : assign_observations (clear_clusters clusters) observations = .ok result)
    (hne : find_empty_cluster result = none) :
    clusters.length ≤ observations.dedup.length := by
  by_cases hnil : clusters = []
  · rw [hnil]; exact Nat.zero_le _
  have hcne : clear_clusters clusters ≠ [] := by
    intro hc
    have := clear_clusters_length clusters
    rw [hc] at this
    exact hnil (List.length_eq_zero.mp this.symm)
  rw [assign_observations_eq _ _ hcne, Except.ok.injEq] at h
  have hall := find_empty_cluster_none result hne
  have hsurj : ∀ j, j < clusters.length →
      ∃ o ∈ observations, closest_cluster_index (clear_clusters clusters) o = j := by
    intro j hj
    have hj2 : j < (clear_clusters clusters).length := by rw [clear_clusters_length]; exact hj
    have hget := distribute_getElem? (clear_clusters clusters) observations
      (clear_clusters clusters) 0 j
    rw [h, List.getElem?_eq_getElem hj2, Option.map_some'] at hget
    have hmem := List.getElem?_mem hget
    have hnonempty := hall _ hmem
    have hcl := clear_clusters_observations clusters _ (List.getElem_mem hj2)
    simp only [hcl, List.nil_append, Nat.zero_add] at hnonempty
    obtain ⟨o, ho⟩ := List.exists_mem_of_ne_nil _ hnonempty
    rw [List.mem_filter] at ho
    exact ⟨o, ho.1, by simpa using ho.2⟩
  have hcard : (Finset.range clusters.length).card ≤ observations.toFinset.card := by
    apply Finset.card_le_card_of_surjOn (closest_cluster_index (clear_clusters clusters))
    intro j hj
    have hj2 : j < clusters.length := by simpa using hj
    obtain ⟨o, ho, hoj⟩ := hsurj j hj2
    exact ⟨o, by simpa using ho, hoj⟩
  rw [Finset.card_range, List.card_toFinset] at hcard
  exact hcard

end k_means

namespace k_means

/-- What the seeding loop leaves when it returns: the number of clusters is
kept, the clusters below the start index are untouched, and every cluster from
the start index up to `param` has got an observation as its mean. -/
theorem seed_loop_sound (palette : List Nat) (observations : List v2d) (param hi : Nat)
    (random_engine : List Nat) (i : Nat) (clusters : List cluster) (visited : List Nat)
    (seeded : List cluster) (rest : List Nat)
    (h : seed_loop palette observations param hi random_engine i clusters visited
      = .ok (seeded, rest)) :
    seeded.length = clusters.length ∧
    (∀ k, k < i → seeded[k]? = clusters[k]?) ∧
    (∀ k, i ≤ k → k < param → ∃ c, seeded[k]? = some c ∧ c.mean ∈ observations) := by
  induction random_engine generalizing i clusters visited with
  | nil =>
    simp only [seed_loop] at h
    split at h
    · simp only [Except.ok.injEq, Prod.mk.injEq] at h
      rw [← h.1]
      exact ⟨rfl, fun _ _ => rfl, fun k hk hkp => by omega⟩
    · cases h
  | cons r rs ih =>
    simp only [seed_loop] at h
    split at h
    · simp only [Except.ok.injEq, Prod.mk.injEq] at h
      rw [← h.1]
      exact ⟨rfl, fun _ _ => rfl, fun k hk hkp => by omega⟩
    · split at h
      · exact ih _ _ _ h
      · split at h
        · rename_i mean color c0 hm _ hc0
          obtain ⟨hlen, hpre, hset⟩ := ih _ _ _ h
          have hi : i < clusters.length := by
            by_contra hge
            rw [List.getElem?_eq_none (by omega)] at hc0
            cases hc0
          refine ⟨by rw [hlen, List.length_set], ?_, ?_⟩
          · intro k hk
            rw [hpre k (by omega), List.getElem?_set_ne (by omega)]
          · intro k hk hkp
            by_cases hki : k = i
            · subst hki
              rw [hpre k (by omega), List.getElem?_set_self hi]
              exact ⟨_, rfl, List.getElem?_mem hm⟩
            · exact hset k (by omega) hkp
        · cases h

/-- The seeding loop can only return when `param` distinct indices of the
observation vector exist. -/
theorem seed_loop_bound (palette : List Nat) (observations : List v2d) (param hi : Nat)
    (random_engine : List Nat) (i : Nat) (clusters : List cluster) (visited : List Nat)
    (seeded : List cluster) (rest : List Nat)
    (h : seed_loop palette observations param hi random_engine i clusters visited
      = .ok (seeded, rest))
    (hnd : visited.Nodup) (hlt : ∀ v ∈ visited, v < observations.length)
    (hlen : visited.length = i) :
    param ≤ observations.length := by
  have hile : i ≤ observations.length := by
    rw [← hlen]; exact nodup_bounded_length visited _ hnd hlt
  induction random_engine generalizing i clusters visited with
  | nil =>
    simp only [seed_loop] at h
    split at h
    · omega
    · cases h
  | cons r rs ih =>
    simp only [seed_loop] at h
    split at h
    · omega
    · split at h
      · exact ih _ _ _ h hnd hlt hlen hile
      · rename_i hnot
        split at h
        · rename_i mean color c0 hm _ _
          have hr : uniform_draw hi r < observations.length := by
            by_contra hge
            rw [List.getElem?_eq_none (by omega)] at hm
            cases hm
          have hnotmem : uniform_draw hi r ∉ visited := by
            intro hmem
            exact hnot (by simpa using hmem)
          have hnd2 : (uniform_draw hi r :: visited).Nodup := List.nodup_cons.mpr ⟨hnotmem, hnd⟩
          have hlt2 : ∀ v ∈ uniform_draw hi r :: visited, v < observations.length := by
            intro v hv
            rcases List.mem_cons.mp hv with hv | hv
            · rw [hv]; exact hr
            · exact hlt v hv
          have hlen2 : (uniform_draw hi r :: visited).length = i + 1 := by simp [hlen]
          have hi2 : i + 1 ≤ observations.length := by
            rw [← hlen2]; exact nodup_bounded_length _ _ hnd2 hlt2
          exact ih _ _ _ h hnd2 hlt2 hlen2 hi2
        · cases h

/-- With fewer distinct locations than clusters the loop of `k_means::partition`
can only be left through its condition before the first cycle, or through the
test for an empty cluster. -/
theorem lloyd_loop_degenerate (observations : List v2d) (fuel : Nat) (clusters : List cluster)
    (previous_means : List v2d) (profile : partitioning_profile)
    (cs : List cluster) (pm : List v2d) (pf : partitioning_profile)
    (hdeg : observations.dedup.length < clusters.length)
    (h : lloyd_loop observations fuel clusters previous_means profile = .ok (.finished cs pm pf)) :
    cs = clusters ∧ pm = previous_means ∧ pf = profile ∧
      converged clusters previous_means = .ok true := by
  cases fuel with
  | zero => simp [lloyd_loop] at h
  | succ fuel =>
    simp only [lloyd_loop] at h
    split at h
    · cases h
    · rename_i hconv
      simp only [Except.ok.injEq, attempt.finished.injEq] at h
      exact ⟨h.1.symm, h.2.1.symm, h.2.2.symm, hconv⟩
    · split at h
      · cases h
      · rename_i assigned hassign
        split at h
        · cases h
        · rename_i hnone
          have := no_empty_cluster_distinct clusters assigned observations hassign hnone
          omega

/-- With fewer distinct locations than `param`, `k_means::partition` returns
only from an attempt whose loop never started: the returned clusters are the
seeded ones, and the seeds equal the zero-initialised previous means. -/
theorem partition_degenerate_seeds (palette : List Nat) (param : Nat) (observations : List v2d)
    (fuel : Nat) (random_engine : List Nat) (profile : partitioning_profile) (r : result)
    (hdeg : observations.dedup.length < param)
    (h : partition palette param observations fuel random_engine profile = .ok r) :
    r.profile.iterations = 0 ∧ r.clusters.length = param ∧
    (∀ c ∈ r.clusters, c.observations = [] ∧ c.mean = v2d.zero) ∧
    (∀ k, k < param → ∃ c, r.clusters[k]? = some c ∧ c.mean ∈ observations) := by
  induction fuel generalizing random_engine profile with
  | zero => simp [partition] at h
  | succ fuel ih =>
    simp only [partition] at h
    split at h
    · cases h
    · rename_i seeded rest hseed
      obtain ⟨hlen, _, hset⟩ := seed_loop_sound _ _ _ _ _ _ _ _ _ _ hseed
      rw [List.length_replicate] at hlen
      split at h
      · cases h
      · rename_i cs pm pf hloop
        simp only [Except.ok.injEq] at h
        subst h
        obtain ⟨h1, _, h3, hconv⟩ := lloyd_loop_degenerate observations fuel seeded _ _ cs pm pf
          (by rw [hlen]; exact hdeg) hloop
        subst h1 h3
        have hempty := seed_loop_observations _ _ _ _ _ _ _ _ _ _ hseed
          (by
            intro c hc
            rw [List.eq_of_mem_replicate hc]
            rfl)
        refine ⟨rfl, hlen, ?_, fun k hk => hset k (Nat.zero_le k) hk⟩
        intro c hc
        exact ⟨hempty c hc, List.eq_of_mem_replicate (converged_mean_mem _ _ hconv c hc)⟩
      · exact ih _ _ h

theorem init_clusters_loop_length (palette : List Nat) (remaining i : Nat) (means : List v2d)
    (clusters : List cluster) (h : init_clusters_loop palette remaining i means = .ok clusters) :
    clusters.length = remaining := by
  induction remaining generalizing i clusters with
  | zero =>
    simp only [init_clusters_loop, Except.ok.injEq] at h
    rw [← h]; rfl
  | succ remaining ih =>
    simp only [init_clusters_loop] at h
    split at h
    · split at h
      · cases h
      · rename_i tail htail
        simp only [Except.ok.injEq] at h
        rw [← h, List.length_cons, ih _ _ htail]
    · cases h

theorem sort_by_x_dedup_length (observations : List v2d) :
    (sort_by_x observations).dedup.length = observations.dedup.length :=
  (List.Perm.dedup (List.perm_insertionSort _ observations)).length_eq

end k_means

namespace k_medoids

/-- With fewer distinct locations than clusters every pass through the loop of
`k_medoids::partition` finds an empty cluster, so the loop never returns. -/
theorem medoid_loop_degenerate (observations : List v2d) (fuel : Nat) (clusters : List cluster)
    (previous_means : List v2d) (current previous : Option Int) (profile : partitioning_profile)
    (random_engine : List Nat) (r : result)
    (hdeg : observations.dedup.length < clusters.length) :
    medoid_loop observations fuel clusters previous_means current previous profile
      random_engine ≠ .ok r := by
  induction fuel generalizing clusters previous_means current previous profile random_engine with
  | zero => simp [medoid_loop]
  | succ fuel ih =>
    intro h
    simp only [medoid_loop] at h
    split at h
    · cases h
    · rename_i assigned hassign
      have hlen : assigned.length = clusters.length := by
        rw [k_means.assign_observations_length _ _ _ hassign, k_means.clear_clusters_length]
      split at h
      · split at h
        · split at h
          · exact ih _ _ _ _ _ _ (by rw [List.length_set, hlen]; exact hdeg) h
          · cases h
        · cases h
      · rename_i hnone
        have := k_means.no_empty_cluster_distinct clusters assigned observations hassign hnone
        omega

theorem partition_never_returns_degenerate (palette : List Nat) (param : Nat) (observations : List v2d)
    (fuel : Nat) (random_engine : List Nat) (profile : partitioning_profile) (r : result)
    (hdeg : observations.dedup.length < param) :
    partition palette param observations fuel random_engine profile ≠ .ok r := by
  intro h
  simp only [partition] at h
  split at h
  · cases h
  · rename_i means after hfind
    split at h
    · cases h
    · rename_i clusters hinit
      have hafter := find_optimal_means_observations _ _ _ _ hfind
      have hlen := k_means.init_clusters_loop_length _ _ _ _ _ hinit
      refine medoid_loop_degenerate after fuel clusters _ _ _ _ _ r ?_ h
      rw [hafter, k_means.sort_by_x_dedup_length, hlen]
      exact hdeg

end k_medoids

namespace k_means

theorem partition_param_le (palette : List Nat) (param : Nat) (observations : List v2d)
    (fuel : Nat) (random_engine : List Nat) (profile : partitioning_profile) (r : result)
    (h : partition palette param observations fuel random_engine profile = .ok r) :
    param ≤ observations.length := by
  induction fuel generalizing random_engine profile with
  | zero => simp [partition] at h
  | succ fuel ih =>
    simp only [partition] at h
    split at h
    · cases h
    · rename_i seeded rest hseed
      exact seed_loop_bound _ _ _ _ _ _ _ _ _ _ hseed List.nodup_nil
        (fun v hv => by cases hv) rfl

theorem take_succ_set (l : List cluster) (i : Nat) (a : cluster) (h : i < l.length) :
    (l.set i a).take (i + 1) = l.take i ++ [a] := by
  induction l generalizing i with
  | nil => simp at h
  | cons b l ih =>
    cases i with
    | zero => simp
    | succ i =>
      simp only [List.set_cons_succ, List.take_succ_cons, List.cons_append, List.cons.injEq,
        true_and]
      exact ih i (by simpa using h)

/-- Distinct indices that all hold the point `p` are at most as many as the
occurrences of `p` among the observations. -/
theorem nodup_indices_count (observations : List v2d) (p : v2d) (l : List Nat)
    (hnd : l.Nodup) (h : ∀ j ∈ l, observations[j]? = some p) :
    l.length ≤ observations.count p := by
  induction observations generalizing l with
  | nil =>
    cases l with
    | nil => simp
    | cons j l => simpa using h j (List.mem_cons_self j l)
  | cons a observations ih =>
    have hnd2 : ((l.filter (fun j => decide (j ≠ 0))).map (fun j => j - 1)).Nodup := by
      apply List.Nodup.map_on
      · intro x hx y hy hxy
        have hx0 := (List.mem_filter.mp hx).2
        have hy0 := (List.mem_filter.mp hy).2
        simp only [ne_eq, decide_not, Bool.not_eq_eq_eq_not, Bool.not_true,
          decide_eq_false_iff_not] at hx0 hy0
        omega
      · exact hnd.filter _
    have h2 : ∀ j ∈ (l.filter (fun j => decide (j ≠ 0))).map (fun j => j - 1),
        observations[j]? = some p := by
      intro j hj
      obtain ⟨j0, hj0, rfl⟩ := List.mem_map.mp hj
      have hmem := (List.mem_filter.mp hj0).1
      have hne := (List.mem_filter.mp hj0).2
      simp only [ne_eq, decide_not, Bool.not_eq_eq_eq_not, Bool.not_true,
        decide_eq_false_iff_not] at hne
      have := h j0 hmem
      obtain ⟨k, rfl⟩ : ∃ k, j0 = k + 1 := ⟨j0 - 1, by omega⟩
      simpa using this
    have hlen := ih _ hnd2 h2
    rw [List.length_map] at hlen
    have hsplit : l.length = (l.filter (fun j => decide (j ≠ 0))).length + l.count 0 := by
      have := List.length_eq_countP_add_countP (fun j => decide (j ≠ 0)) l
      rw [this, List.countP_eq_length_filter]
      congr 1
      simp only [List.count, ne_eq, decide_not, Bool.not_not]
      congr 1
      funext j
      cases j <;> simp
    have hc1 : l.count 0 ≤ 1 := List.nodup_iff_count_le_one.mp hnd 0
    rw [List.count_cons]
    by_cases h0 : 0 ∈ l
    · have ha := h 0 h0
      simp only [List.getElem?_cons_zero, Option.some.injEq] at ha
      simp [ha]
      omega
    · have : l.count 0 = 0 := List.count_eq_zero_of_not_mem h0
      omega

/-- The seeding loop gives the first `param` clusters the observations at
pairwise distinct indices. -/
theorem seed_loop_distinct (palette : List Nat) (observations : List v2d) (param hi : Nat)
    (random_engine : List Nat) (i : Nat) (clusters : List cluster) (visited : List Nat)
    (seeded : List cluster) (rest : List Nat)
    (h : seed_loop palette observations param hi random_engine i clusters visited
      = .ok (seeded, rest))
    (hip : i ≤ param) (hnd : visited.Nodup)
    (hinv : ((clusters.take i).map (fun c => some c.mean)).Perm
      (visited.map (fun j => observations[j]?))) :
    ∃ indices : List Nat, indices.Nodup ∧
      ((seeded.take param).map (fun c => some c.mean)).Perm
        (indices.map (fun j => observations[j]?)) := by
  induction random_engine generalizing i clusters visited with
  | nil =>
    simp only [seed_loop] at h
    split at h
    · rename_i hpi
      simp only [Except.ok.injEq, Prod.mk.injEq] at h
      have hieq : i = param := by omega
      subst hieq
      rw [← h.1]
      exact ⟨visited, hnd, hinv⟩
    · cases h
  | cons r rs ih =>
    simp only [seed_loop] at h
    split at h
    · rename_i hpi
      simp only [Except.ok.injEq, Prod.mk.injEq] at h
      have hieq : i = param := by omega
      subst hieq
      rw [← h.1]
      exact ⟨visited, hnd, hinv⟩
    · rename_i hpi
      split at h
      · exact ih _ _ _ h hip hnd hinv
      · rename_i hnot
        split at h
        · rename_i mean color c0 hmean _ hc0
          have hil : i < clusters.length := by
            obtain ⟨hlt, _⟩ := List.getElem?_eq_some.mp hc0
            exact hlt
          refine ih _ _ _ h (by omega) ?_ ?_
          · refine List.nodup_cons.mpr ⟨?_, hnd⟩
            intro hmem
            apply hnot
            simpa using hmem
          · rw [take_succ_set _ _ _ hil, List.map_append, List.map_cons, List.map_nil,
              List.map_cons, hmean]
            exact (List.perm_append_singleton _ _).trans (List.Perm.cons _ hinv)
        · cases h

/-- With fewer distinct locations than `param`, `k_means::partition` can return
only if the origin occurs at least `param` times among the observations. -/
theorem partition_degenerate_origin (palette : List Nat) (param : Nat) (observations : List v2d)
    (fuel : Nat) (random_engine : List Nat) (profile : partitioning_profile) (r : result)
    (hdeg : observations.dedup.length < param)
    (h : partition palette param observations fuel random_engine profile = .ok r) :
    param ≤ observations.count v2d.zero := by
  induction fuel generalizing random_engine profile with
  | zero => simp [partition] at h
  | succ fuel ih =>
    simp only [partition] at h
    split at h
    · cases h
    · rename_i seeded rest hseed
      obtain ⟨hlen, _, _⟩ := seed_loop_sound _ _ _ _ _ _ _ _ _ _ hseed
      rw [List.length_replicate] at hlen
      split at h
      · cases h
      · rename_i cs pm pf hloop
        obtain ⟨_, _, _, hconv⟩ := lloyd_loop_degenerate observations fuel seeded _ _ cs pm pf
          (by rw [hlen]; exact hdeg) hloop
        obtain ⟨indices, hnd, hperm⟩ := seed_loop_distinct _ _ _ _ _ _ _ _ _ _ hseed
          (Nat.zero_le _) List.nodup_nil (by simp)
        rw [List.take_of_length_le (by omega)] at hperm
        have hall : ∀ j ∈ indices, observations[j]? = some v2d.zero := by
          intro j hj
          have hm : observations[j]? ∈ indices.map (fun j => observations[j]?) :=
            List.mem_map.mpr ⟨j, hj, rfl⟩
          obtain ⟨c, hc, hceq⟩ := List.mem_map.mp (hperm.mem_iff.mpr hm)
          rw [← hceq, List.eq_of_mem_replicate (converged_mean_mem _ _ hconv c hc)]
        have hcount := nodup_indices_count observations v2d.zero indices hnd hall
        have hl := hperm.length_eq
        rw [List.length_map, List.length_map, hlen] at hl
        omega
      · exact ih _ _ h

end k_means

/-- C12 (counterexample): for the observations `(3,3), (3,3)` and `K = 2`
neither `k_means::partition` nor `k_medoids::partition` produces a result,
whatever the bound on the attempts and whatever the random engine yields. -/
theorem same_point_pair_never_returns :
    (¬ ∃ fuel random_engine profile r,
      k_means.partition [1, 2] 2 [⟨3, 3⟩, ⟨3, 3⟩] fuel random_engine profile = .ok r) ∧
    (¬ ∃ fuel random_engine profile r,
      k_medoids.partition [1, 2] 2 [⟨3, 3⟩, ⟨3, 3⟩] fuel random_engine profile = .ok r) := by
  have hdeg : ([⟨3, 3⟩, ⟨3, 3⟩] : List v2d).dedup.length < 2 := by decide
  constructor
  · rintro ⟨fuel, random_engine, profile, r, h⟩
    obtain ⟨_, _, hzero, hseed⟩ :=
      k_means.partition_degenerate_seeds _ _ _ _ _ _ r hdeg h
    obtain ⟨c, hc, hmem⟩ := hseed 0 (by decide)
    have hz := (hzero c (List.getElem?_mem hc)).2
    rw [hz] at hmem
    revert hmem
    decide
  · rintro ⟨fuel, random_engine, profile, r, h⟩
    exact k_medoids.partition_never_returns_degenerate _ _ _ _ _ _ r hdeg h

/-- C12 (amended): when the observations have fewer distinct locations than
`K`, no failure is reported and no bound is applied.  `k_medoids::partition`
never returns: every pass through its loop finds an empty cluster and reseeds
it.  `k_means::partition` never returns when the origin occurs fewer than `K`
times among the observations: every attempt ends in an empty cluster and a
restart. -/
theorem degenerate_input_not_reported (palette : List Nat) (param : Nat)
    (observations : List v2d) (hdeg : observations.dedup.length < param) :
    (observations.count v2d.zero < param →
      ∀ fuel random_engine profile r,
        k_means.partition palette param observations fuel random_engine profile ≠ .ok r) ∧
    (∀ fuel random_engine profile r,
      k_medoids.partition palette param observations fuel random_engine profile ≠ .ok r) := by
  constructor
  · intro hzero fuel random_engine profile r h
    have := k_means.partition_degenerate_origin _ _ _ _ _ _ r hdeg h
    omega
  · intro fuel random_engine profile r
    exact k_medoids.partition_never_returns_degenerate _ _ _ _ _ _ r hdeg

/-- Witness of the amended C12: the observations `(3,3), (3,3)` and `K = 2`; the
origin does not occur among them. -/
theorem degenerate_input_not_reported_witness :
    ([⟨3, 3⟩, ⟨3, 3⟩] : List v2d).dedup.length < 2 ∧
    ([⟨3, 3⟩, ⟨3, 3⟩] : List v2d).count v2d.zero < 2 ∧
    ((([⟨3, 3⟩, ⟨3, 3⟩] : List v2d).count v2d.zero < 2 →
      ∀ fuel random_engine profile r,
        k_means.partition [1, 2] 2 [⟨3, 3⟩, ⟨3, 3⟩] fuel random_engine profile ≠ .ok r) ∧
    (∀ fuel random_engine profile r,
      k_medoids.partition [1, 2] 2 [⟨3, 3⟩, ⟨3, 3⟩] fuel random_engine profile ≠ .ok r)) :=
  ⟨by decide, by decide,
    degenerate_input_not_reported [1, 2] 2 [⟨3, 3⟩, ⟨3, 3⟩] (by decide)⟩

/-- C13 (counterexample): `k_means::partition` with `K = 0` on a non-empty
observation list reports no error; it returns an empty cluster vector. -/
theorem zero_param_returns_no_clusters :
    ∃ r, k_means.partition [1] 0 [⟨1, 1⟩] 2 [] ⟨5⟩ = .ok r ∧ r.clusters = [] :=
  ⟨_, rfl, rfl⟩

/-- C13 (amended): `partition` does not validate its parameters.  With `K = 0`
`k_means::partition` returns an empty cluster vector and leaves the engine as
it is, and `k_medoids::partition` divides by zero in `find_optimal_means`.
With `K` greater than the number of observations neither of them returns: the
k-means seeding cannot draw `K` distinct indices, and k-medoids always finds an
empty cluster.  With no observation and `K ≥ 1` the k-means seeding reads
`observations[random_index]` past the end, and k-medoids takes `back()` of an
empty vector. -/
theorem partition_without_validation (palette : List Nat) (observations : List v2d)
    (extra fuel first : Nat) (random_engine : List Nat) (profile : partitioning_profile) :
    k_means.partition palette 0 observations (fuel + 2) random_engine profile
      = .ok ⟨[], [], ⟨0⟩, random_engine⟩ ∧
    k_medoids.partition palette 0 observations fuel random_engine profile
      = .error .divisionByZero ∧
    (∀ r, k_means.partition palette (observations.length + 1 + extra) observations fuel
      random_engine profile ≠ .ok r) ∧
    (∀ r, k_medoids.partition palette (observations.length + 1 + extra) observations fuel
      random_engine profile ≠ .ok r) ∧
    k_means.partition palette (extra + 1) [] (fuel + 1) (first :: random_engine) profile
      = .error .indexOutOfRange ∧
    k_medoids.partition palette (extra + 1) [] fuel random_engine profile
      = .error .indexOutOfRange := by
  refine ⟨?_, ?_, ?_, ?_, ?_, ?_⟩
  · cases random_engine <;>
      simp [k_means.partition, k_means.seed_loop, k_means.lloyd_loop, k_means.converged,
        partitioning_profile.reset]
  · simp [k_medoids.partition, k_means.find_optimal_means]
  · intro r h
    have := k_means.partition_param_le _ _ _ _ _ _ r h
    omega
  · intro r
    apply k_medoids.partition_never_returns_degenerate
    have := List.Sublist.length_le (List.dedup_sublist observations)
    omega
  · simp [k_means.partition, k_means.seed_loop]
  · simp [k_medoids.partition, k_means.find_optimal_means, k_means.find_means_loop, sort_by_x,
      lower_bound]


/-! ## Medoids and the recorded dissimilarities -/

namespace k_medoids

theorem compute_medoid_mem (c : cluster) (random_engine : List Nat) (medoid : v2d)
    (rest : List Nat) (h : compute_medoid c random_engine = .ok (medoid, rest)) :
    medoid ∈ c.observations := by
  simp only [compute_medoid] at h
  split at h
  · rename_i m hm
    simp only [Except.ok.injEq, Prod.mk.injEq] at h
    rw [← h.1]
    exact List.mem_of_find?_eq_some hm
  · split at h
    · cases h
    · split at h
      · rename_i m hm
        simp only [Except.ok.injEq, Prod.mk.injEq] at h
        rw [← h.1]
        exact List.getElem?_mem hm
      · cases h

theorem update_medoids_mem (clusters : List cluster) (random_engine : List Nat)
    (updated : List cluster) (previous_means : List v2d) (rest : List Nat)
    (h : update_medoids clusters random_engine = .ok (updated, previous_means, rest)) :
    ∀ c ∈ updated, c.mean ∈ c.observations := by
  induction clusters generalizing random_engine updated previous_means rest with
  | nil =>
    simp only [update_medoids, Except.ok.injEq, Prod.mk.injEq] at h
    rw [← h.1]
    intro c hc; cases hc
  | cons c cs ih =>
    simp only [update_medoids] at h
    split at h
    · cases h
    · rename_i medoid engine2 hmed
      split at h
      · cases h
      · rename_i tail pm engine3 htail
        simp only [Except.ok.injEq, Prod.mk.injEq] at h
        rw [← h.1]
        intro d hd
        rcases List.mem_cons.mp hd with hd | hd
        · rw [hd]
          exact compute_medoid_mem c random_engine medoid engine2 hmed
        · exact ih _ _ _ _ htail d hd

theorem medoid_loop_medoid_mem (observations : List v2d) (fuel : Nat) (clusters : List cluster)
    (previous_means : List v2d) (current previous : Option Int) (profile : partitioning_profile)
    (random_engine : List Nat) (r : result)
    (h : medoid_loop observations fuel clusters previous_means current previous profile
      random_engine = .ok r) :
    ∀ c ∈ r.clusters, c.mean ∈ c.observations := by
  induction fuel generalizing clusters previous_means current previous profile random_engine with
  | zero => simp [medoid_loop] at h
  | succ fuel ih =>
    simp only [medoid_loop] at h
    split at h
    · cases h
    · split at h
      · split at h
        · split at h
          · exact ih _ _ _ _ _ _ h
          · cases h
        · cases h
      · split at h
        · cases h
        · rename_i updated pm engine2 hupd
          split at h
          · simp only [Except.ok.injEq] at h
            subst h
            exact update_medoids_mem _ _ _ _ _ hupd
          · exact ih _ _ _ _ _ _ h

/-- C14 (medoids are members): whenever `k_medoids::partition` returns, the mean
stored in every returned cluster is one of the observations held in the
observation collection of that same cluster. -/
theorem partition_medoid_is_member (palette : List Nat) (param : Nat)
    (observations : List v2d) (fuel : Nat) (random_engine : List Nat)
    (profile : partitioning_profile) (r : result)
    (h : partition palette param observations fuel random_engine profile = .ok r) :
    ∀ c ∈ r.clusters, c.mean ∈ c.observations := by
  simp only [partition] at h
  split at h
  · cases h
  · split at h
    · cases h
    · exact medoid_loop_medoid_mem _ _ _ _ _ _ _ _ r h

/-- Witness of C14: five observations and `K = 2`. -/
theorem partition_medoid_is_member_witness :
    partition [1, 2] 2 [⟨0, 0⟩, ⟨1, 0⟩, ⟨9, 0⟩, ⟨10, 0⟩, ⟨4, 7⟩] 2 [] ⟨0⟩ =
      .ok ⟨[⟨⟨1, 0⟩, 1, [⟨0, 0⟩, ⟨1, 0⟩, ⟨4, 7⟩]⟩, ⟨⟨9, 0⟩, 2, [⟨9, 0⟩, ⟨10, 0⟩]⟩],
        [⟨0, 0⟩, ⟨1, 0⟩, ⟨4, 7⟩, ⟨9, 0⟩, ⟨10, 0⟩], [⟨1, 0⟩, ⟨9, 0⟩], some 60, some 60, ⟨2⟩, []⟩ ∧
    ∀ c ∈ ([⟨⟨1, 0⟩, 1, [⟨0, 0⟩, ⟨1, 0⟩, ⟨4, 7⟩]⟩, ⟨⟨9, 0⟩, 2, [⟨9, 0⟩, ⟨10, 0⟩]⟩] : List cluster),
      c.mean ∈ c.observations :=
  ⟨rfl, partition_medoid_is_member [1, 2] 2 [⟨0, 0⟩, ⟨1, 0⟩, ⟨9, 0⟩, ⟨10, 0⟩, ⟨4, 7⟩] 2 [] ⟨0⟩ _ rfl⟩

end k_medoids

namespace k_medoids

/-- The recorded list does not influence the run: dropping it from the result of
the traced loop gives the result of the loop. -/
theorem medoid_loop_traced_fst (observations : List v2d) (fuel : Nat) (clusters : List cluster)
    (previous_means : List v2d) (current previous : Option Int) (profile : partitioning_profile)
    (random_engine : List Nat) (trace : List Int) :
    (medoid_loop_traced observations fuel clusters previous_means current previous profile
        random_engine trace).map Prod.fst =
      medoid_loop observations fuel clusters previous_means current previous profile
        random_engine := by
  induction fuel generalizing clusters previous_means current previous profile random_engine
      trace with
  | zero => rfl
  | succ fuel ih =>
    simp only [medoid_loop_traced, medoid_loop]
    split
    · rfl
    · split
      · split
        · split
          · exact ih _ _ _ _ _ _ _
          · rfl
        · rfl
      · split
        · rfl
        · split
          · rfl
          · exact ih _ _ _ _ _ _ _

theorem partition_traced_fst (palette : List Nat) (param : Nat) (observations : List v2d)
    (fuel : Nat) (random_engine : List Nat) (profile : partitioning_profile) :
    (partition_traced palette param observations fuel random_engine profile).map Prod.fst =
      partition palette param observations fuel random_engine profile := by
  simp only [partition_traced, partition]
  split
  · rfl
  · split
    · rfl
    · exact medoid_loop_traced_fst _ _ _ _ _ _ _ _ _

theorem medoid_loop_traced_spec (observations : List v2d) (fuel : Nat) (clusters : List cluster)
    (previous_means : List v2d) (current previous : Option Int) (profile : partitioning_profile)
    (random_engine : List Nat) (trace : List Int) (r : result) (out : List Int)
    (h : medoid_loop_traced observations fuel clusters previous_means current previous profile
      random_engine trace = .ok (r, out))
    (hchain : trace.Chain' (fun a b => b < a)) (hcur : current = trace.getLast?) :
    ∃ ds d_prev d_last, out = ds ++ [d_prev, d_last] ∧
      (ds ++ [d_prev]).Chain' (fun a b => b < a) ∧ d_prev ≤ d_last ∧
      r.current_dissimilarity = some d_last ∧ r.previous_dissimilarity = some d_prev ∧
      d_last = dissimilarity r.clusters ∧
      r.profile.iterations + trace.length = profile.iterations + out.length := by
  induction fuel generalizing clusters previous_means current previous profile random_engine
      trace with
  | zero => simp [medoid_loop_traced] at h
  | succ fuel ih =>
    simp only [medoid_loop_traced] at h
    split at h
    · cases h
    · split at h
      · split at h
        · split at h
          · exact ih _ _ _ _ _ _ _ h hchain hcur
          · cases h
        · cases h
      · split at h
        · cases h
        · rename_i updated pm engine2 hupd
          split at h
          · rename_i hge
            simp only [Except.ok.injEq, Prod.mk.injEq] at h
            obtain ⟨hr, hout⟩ := h
            subst hr
            cases hc : current with
            | none => rw [hc] at hge; simp [dissimilarity_ge] at hge
            | some p =>
              rw [hc] at hge
              have hle : p ≤ dissimilarity updated := by simpa [dissimilarity_ge] using hge
              rw [hc] at hcur
              obtain ⟨ds, hds⟩ := List.getLast?_eq_some_iff.mp hcur.symm
              refine ⟨ds, p, dissimilarity updated, ?_, ?_, hle, rfl, rfl, rfl, ?_⟩
              · rw [← hout, hds]; simp
              · rw [← hds]; exact hchain
              · rw [← hout]; simp; omega
          · rename_i hge
            have hchain2 : (trace ++ [dissimilarity updated]).Chain' (fun a b => b < a) := by
              refine List.Chain'.append hchain (List.chain'_singleton _) ?_
              intro x hx y hy
              simp only [List.head?_cons, Option.mem_def, Option.some.injEq] at hy
              subst hy
              have hx2 : current = some x := by rw [hcur]; exact hx
              rw [hx2] at hge
              simpa [dissimilarity_ge] using hge
            obtain ⟨ds, d_prev, d_last, h1, h2, h3, h4, h5, h6, h7⟩ :=
              ih _ _ _ _ _ _ _ h hchain2 (by rw [List.getLast?_concat])
            refine ⟨ds, d_prev, d_last, h1, h2, h3, h4, h5, h6, ?_⟩
            simp only [List.length_append, List.length_singleton] at h7
            omega

/-- C15 (recorded dissimilarities): in every run of `k_medoids::partition` that
returns, the values `d_1, ..., d_m` that `dissimilarity` returned at the end
of the completed iterations are at least two, `m` is the iteration count of the
profile, all but the last decrease strictly (`d_1 > ... > d_(m-1)`), and the
last one does not improve (`d_m ≥ d_(m-1)`); `d_m` is the dissimilarity of the
returned clusters. -/
theorem partition_dissimilarity_trace (palette : List Nat) (param : Nat)
    (observations : List v2d) (fuel : Nat) (random_engine : List Nat)
    (profile : partitioning_profile) (r : result)
    (h : partition palette param observations fuel random_engine profile = .ok r) :
    ∃ trace ds d_prev d_last,
      partition_traced palette param observations fuel random_engine profile = .ok (r, trace) ∧
      trace = ds ++ [d_prev, d_last] ∧
      (ds ++ [d_prev]).Chain' (fun a b => b < a) ∧ d_prev ≤ d_last ∧
      r.profile.iterations = trace.length ∧
      r.current_dissimilarity = some d_last ∧ r.previous_dissimilarity = some d_prev ∧
      d_last = dissimilarity r.clusters := by
  have hfst := partition_traced_fst palette param observations fuel random_engine profile
  rw [h] at hfst
  cases ht : partition_traced palette param observations fuel random_engine profile with
  | error e => rw [ht] at hfst; cases hfst
  | ok pair =>
    obtain ⟨r2, trace⟩ := pair
    rw [ht] at hfst
    have hr : r2 = r := by
      simpa [Except.map] using hfst
    subst hr
    have ht2 := ht
    simp only [partition_traced] at ht2
    split at ht2
    · cases ht2
    · split at ht2
      · cases ht2
      · obtain ⟨ds, d_prev, d_last, h1, h2, h3, h4, h5, h6, h7⟩ :=
          medoid_loop_traced_spec _ _ _ _ _ _ _ _ _ r2 trace ht2 List.chain'_nil rfl
        refine ⟨trace, ds, d_prev, d_last, rfl, h1, h2, h3, ?_, h4, h5, h6⟩
        simpa [partitioning_profile.reset] using h7

/-- Witness of C15: a run with three completed iterations, which record `42`,
`13` and `13`. -/
theorem partition_dissimilarity_trace_witness :
    partition [1, 2] 2 [⟨11, 1⟩, ⟨7, 6⟩, ⟨6, 4⟩, ⟨9, 4⟩] 3 [] ⟨0⟩ =
      .ok ⟨[⟨⟨11, 1⟩, 1, [⟨11, 1⟩]⟩, ⟨⟨7, 6⟩, 2, [⟨6, 4⟩, ⟨7, 6⟩, ⟨9, 4⟩]⟩],
        [⟨6, 4⟩, ⟨7, 6⟩, ⟨9, 4⟩, ⟨11, 1⟩], [⟨11, 1⟩, ⟨7, 6⟩], some 13, some 13, ⟨3⟩, []⟩ ∧
    ∃ trace ds d_prev d_last,
      partition_traced [1, 2] 2 [⟨11, 1⟩, ⟨7, 6⟩, ⟨6, 4⟩, ⟨9, 4⟩] 3 [] ⟨0⟩ =
        .ok (⟨[⟨⟨11, 1⟩, 1, [⟨11, 1⟩]⟩, ⟨⟨7, 6⟩, 2, [⟨6, 4⟩, ⟨7, 6⟩, ⟨9, 4⟩]⟩],
          [⟨6, 4⟩, ⟨7, 6⟩, ⟨9, 4⟩, ⟨11, 1⟩], [⟨11, 1⟩, ⟨7, 6⟩], some 13, some 13, ⟨3⟩, []⟩,
          trace) ∧
      trace = ds ++ [d_prev, d_last] ∧
      (ds ++ [d_prev]).Chain' (fun a b => b < a) ∧ d_prev ≤ d_last ∧
      (3 : Nat) = trace.length ∧
      some (13 : Int) = some d_last ∧ some (13 : Int) = some d_prev ∧
      d_last = dissimilarity
        [⟨⟨11, 1⟩, 1, [⟨11, 1⟩]⟩, ⟨⟨7, 6⟩, 2, [⟨6, 4⟩, ⟨7, 6⟩, ⟨9, 4⟩]⟩] :=
  ⟨rfl, partition_dissimilarity_trace [1, 2] 2 [⟨11, 1⟩, ⟨7, 6⟩, ⟨6, 4⟩, ⟨9, 4⟩] 3 [] ⟨0⟩
    _ rfl⟩

end k_medoids

/-! ## The k-means initialisation and the iteration count -/

namespace k_means

theorem first_occurrences_filter_visited (r : Nat) (rs visited : List Nat)
    (hr : visited.contains r = true) :
    (first_occurrences (r :: rs)).filter (fun a => !visited.contains a) =
      (first_occurrences rs).filter (fun a => !visited.contains a) := by
  simp only [first_occurrences, List.filter_cons, hr, Bool.not_true, Bool.false_eq_true,
    if_false, List.filter_filter]
  apply List.filter_congr
  intro a _
  by_cases ha : a = r
  · subst ha
    have hm : a ∈ visited := by simpa using hr
    simp [hm]
  · simp [ha]

theorem first_occurrences_filter_fresh (r : Nat) (rs visited : List Nat)
    (hr : ¬ visited.contains r = true) :
    (first_occurrences (r :: rs)).filter (fun a => !visited.contains a) =
      r :: (first_occurrences rs).filter (fun a => !(r :: visited).contains a) := by
  have hr2 : visited.contains r = false := by simpa using hr
  simp only [first_occurrences, List.filter_cons, hr2, Bool.not_false, if_true,
    List.filter_filter]
  congr 1
  apply List.filter_congr
  intro a _
  by_cases ha : a = r
  · subst ha; simp
  · simp [ha, List.contains_cons]

/-- The seeding loop in closed form, for a stream of indices in range that holds
enough distinct values not yet visited: from index `i` on, cluster `k` gets the
observation at the `(k - i)`-th distinct unvisited index of the stream, in
order of first occurrence, and the colour `palette[k]`. -/
theorem seed_loop_complete (palette : List Nat) (observations : List v2d) (param hi : Nat)
    (random_engine : List Nat) (i : Nat) (clusters : List cluster) (visited : List Nat)
    (hpal : param ≤ palette.length) (hcl : param ≤ clusters.length)
    (hdraw : ∀ r ∈ random_engine, uniform_draw hi r = r ∧ r < observations.length)
    (hip : i ≤ param)
    (hpicks : param ≤ i +
      ((first_occurrences random_engine).filter (fun a => !visited.contains a)).length) :
    ∃ seeded rest,
      seed_loop palette observations param hi random_engine i clusters visited
        = .ok (seeded, rest) ∧
      seeded.length = clusters.length ∧
      (∀ k, k < i → seeded[k]? = clusters[k]?) ∧
      ∀ k, i ≤ k → k < param → ∃ c0 index mean color,
        clusters[k]? = some c0 ∧
        ((first_occurrences random_engine).filter (fun a => !visited.contains a))[k - i]?
          = some index ∧
        observations[index]? = some mean ∧ palette[k]? = some color ∧
        seeded[k]? = some { c0 with mean := mean, color := color } := by
  induction random_engine generalizing i clusters visited with
  | nil =>
    have hpi : param ≤ i := by simpa [first_occurrences] using hpicks
    refine ⟨clusters, [], by simp [seed_loop, hpi], rfl, fun _ _ => rfl, ?_⟩
    intro k hk hkp; omega
  | cons r rs ih =>
    by_cases hpi : param ≤ i
    · refine ⟨clusters, r :: rs, by simp [seed_loop, hpi], rfl, fun _ _ => rfl, ?_⟩
      intro k hk hkp; omega
    · have hr := hdraw r (List.mem_cons_self _ _)
      have hdraw2 : ∀ q ∈ rs, uniform_draw hi q = q ∧ q < observations.length :=
        fun q hq => hdraw q (List.mem_cons_of_mem _ hq)
      by_cases hvis : visited.contains r = true
      · rw [first_occurrences_filter_visited r rs visited hvis] at hpicks ⊢
        obtain ⟨seeded, rest, h1, h2, h3, h4⟩ := ih i clusters visited hcl hdraw2 hip hpicks
        refine ⟨seeded, rest, ?_, h2, h3, h4⟩
        simp only [seed_loop, hpi, if_false, hr.1, hvis, if_true]
        exact h1
      · rw [first_occurrences_filter_fresh r rs visited hvis] at hpicks ⊢
        have hilt : i < param := by omega
        have hic : i < clusters.length := by omega
        have hipal : i < palette.length := by omega
        have hpicks2 : param ≤ i + 1 +
            ((first_occurrences rs).filter (fun a => !(r :: visited).contains a)).length := by
          simp only [List.length_cons] at hpicks
          omega
        obtain ⟨seeded, rest, h1, h2, h3, h4⟩ := ih (i + 1)
          (clusters.set i { clusters[i] with mean := observations[r], color := palette[i] })
          (r :: visited) (by rw [List.length_set]; exact hcl) hdraw2 (by omega) hpicks2
        refine ⟨seeded, rest, ?_, ?_, ?_, ?_⟩
        · simp only [seed_loop, hpi, if_false, hr.1, hvis,
            List.getElem?_eq_getElem hr.2, List.getElem?_eq_getElem hipal,
            List.getElem?_eq_getElem hic]
          exact h1
        · rw [h2, List.length_set]
        · intro k hk
          rw [h3 k (by omega), List.getElem?_set_ne (by omega)]
        · intro k hk hkp
          by_cases hki : k = i
          · subst hki
            refine ⟨clusters[k], r, observations[r], palette[k],
              List.getElem?_eq_getElem hic, by simp, List.getElem?_eq_getElem hr.2,
              List.getElem?_eq_getElem hipal, ?_⟩
            rw [h3 k (by omega), List.getElem?_set_self hic]
          · obtain ⟨c0, index, mean, color, g1, g2, g3, g4, g5⟩ := h4 k (by omega) hkp
            refine ⟨c0, index, mean, color, ?_, ?_, g3, g4, g5⟩
            · rw [← g1, List.getElem?_set_ne (by omega)]
            · have hk1 : k - i = (k - (i + 1)) + 1 := by omega
              rw [hk1, List.getElem?_cons_succ]
              exact g2

theorem first_occurrences_nodup (l : List Nat) : (first_occurrences l).Nodup := by
  induction l with
  | nil => exact List.nodup_nil
  | cons a l ih =>
    simp only [first_occurrences]
    refine List.nodup_cons.mpr ⟨?_, ih.filter _⟩
    intro h
    have := (List.mem_filter.mp h).2
    simp at this

end k_means

namespace k_means

theorem uniform_draw_in_range (n r : Nat) (hn : n < 2 ^ 64) (hr : r < n) :
    uniform_draw (size_t_pred n) r = r := by
  have h64 : (2 : Nat) ^ 64 = 18446744073709551616 := by norm_num
  have hp : size_t_pred n = n - 1 := by
    simp only [size_t_pred, h64]
    rw [h64] at hn
    omega
  rw [uniform_draw, hp]
  exact Nat.mod_eq_of_lt (by omega)

/-- C16 (initialisation): for a stream of random indices below the number of
observations that holds at least `K` distinct values, and a palette of at
least `K` colours, the seeding loop of `k_means::partition` returns and gives
cluster `k`, for every `k < K`, the observation at the `k`-th distinct index of
the stream in order of first occurrence (with the colour `palette[k]` and no
observation assigned); these indices are pairwise distinct, so a repeated
index takes no cluster slot. -/
theorem seed_loop_first_occurrences (palette : List Nat) (observations : List v2d)
    (param : Nat) (random_engine : List Nat)
    (hsize : observations.length < 2 ^ 64) (hpal : param ≤ palette.length)
    (hrange : ∀ r ∈ random_engine, r < observations.length)
    (hdistinct : param ≤ (first_occurrences random_engine).length) :
    ∃ seeded rest,
      seed_loop palette observations param (size_t_pred observations.length) random_engine 0
        (List.replicate param cluster.init) [] = .ok (seeded, rest) ∧
      seeded.length = param ∧
      ((first_occurrences random_engine).take param).Nodup ∧
      ∀ k, k < param → ∃ index mean color,
        (first_occurrences random_engine)[k]? = some index ∧
        observations[index]? = some mean ∧ palette[k]? = some color ∧
        seeded[k]? = some ⟨mean, color, []⟩ := by
  have hfilter : (first_occurrences random_engine).filter
      (fun a => !([] : List Nat).contains a) = first_occurrences random_engine := by
    simp
  obtain ⟨seeded, rest, h1, h2, _, h4⟩ := seed_loop_complete palette observations param
    (size_t_pred observations.length) random_engine 0 (List.replicate param cluster.init) []
    hpal (by simp)
    (fun r hr => ⟨uniform_draw_in_range _ r hsize (hrange r hr), hrange r hr⟩)
    (Nat.zero_le _) (by rw [hfilter]; omega)
  refine ⟨seeded, rest, h1, by simpa using h2,
    (first_occurrences_nodup random_engine).sublist (List.take_sublist _ _), ?_⟩
  intro k hk
  obtain ⟨c0, index, mean, color, g1, g2, g3, g4, g5⟩ := h4 k (Nat.zero_le _) hk
  rw [hfilter] at g2
  have hc0 : c0 = cluster.init := by
    have := List.getElem?_mem g1
    exact List.eq_of_mem_replicate this
  refine ⟨index, mean, color, by simpa using g2, g3, g4, ?_⟩
  rw [g5, hc0]
  rfl

/-- Witness of C16: the stream `3, 3, 1, 0` on the four observations of the
scenario with `K = 2` seeds the clusters with the observations `3` and `1`. -/
theorem seed_loop_first_occurrences_witness :
    (scenario_observations.length < 2 ^ 64 ∧ 2 ≤ ([1, 2] : List Nat).length ∧
      (∀ r ∈ ([3, 3, 1, 0] : List Nat), r < scenario_observations.length) ∧
      2 ≤ (first_occurrences [3, 3, 1, 0]).length) ∧
    ∃ seeded rest,
      seed_loop [1, 2] scenario_observations 2 (size_t_pred scenario_observations.length)
        [3, 3, 1, 0] 0 (List.replicate 2 cluster.init) [] = .ok (seeded, rest) ∧
      seeded.length = 2 ∧
      ((first_occurrences [3, 3, 1, 0]).take 2).Nodup ∧
      ∀ k, k < 2 → ∃ index mean color,
        (first_occurrences [3, 3, 1, 0])[k]? = some index ∧
        scenario_observations[index]? = some mean ∧ ([1, 2] : List Nat)[k]? = some color ∧
        seeded[k]? = some ⟨mean, color, []⟩ :=
  ⟨⟨by decide, by decide, by decide, by decide⟩,
    seed_loop_first_occurrences [1, 2] scenario_observations 2 [3, 3, 1, 0]
      (by decide) (by decide) (by decide) (by decide)⟩

theorem lloyd_loop_cycles (observations : List v2d) (fuel : Nat) (clusters : List cluster)
    (previous_means : List v2d) (profile : partitioning_profile)
    (cs : List cluster) (pm : List v2d) (pf : partitioning_profile)
    (h : lloyd_loop observations fuel clusters previous_means profile = .ok (.finished cs pm pf)) :
    ∃ m, pf.iterations = profile.iterations + m ∧
      cycles observations m clusters previous_means = some (cs, pm) ∧
      converged cs pm = .ok true := by
  induction fuel generalizing clusters previous_means profile with
  | zero => simp [lloyd_loop] at h
  | succ fuel ih =>
    simp only [lloyd_loop] at h
    split at h
    · cases h
    · rename_i hconv
      simp only [Except.ok.injEq, attempt.finished.injEq] at h
      obtain ⟨h1, h2, h3⟩ := h
      subst h1 h2 h3
      exact ⟨0, rfl, rfl, hconv⟩
    · rename_i hconv
      split at h
      · cases h
      · rename_i assigned hassign
        split at h
        · cases h
        · rename_i hnone
          obtain ⟨m, hm, hc, hfin⟩ := ih _ _ _ h
          refine ⟨m + 1, by simp only at hm; omega, ?_, hfin⟩
          simp only [cycles, hconv, hassign, hnone]
          exact hc

theorem partition_profile_irrelevant (palette : List Nat) (param : Nat)
    (observations : List v2d) (fuel : Nat) (random_engine : List Nat)
    (profile profile2 : partitioning_profile) :
    partition palette param observations fuel random_engine profile =
      partition palette param observations fuel random_engine profile2 := by
  cases fuel with
  | zero => rfl
  | succ fuel => rfl

/-- C17 (iteration count): whenever `k_means::partition` returns, the returned
clusters are reached from the seeds of one attempt, the last one, by exactly
`profile.iterations` completed assign/update cycles, after which `converged`
holds; the cycles of the attempts abandoned before do not count, and the value
the profile held before the call has no influence on the result. -/
theorem partition_iterations_of_final_attempt (palette : List Nat) (param : Nat)
    (observations : List v2d) (fuel : Nat) (random_engine : List Nat)
    (profile : partitioning_profile) (r : result)
    (h : partition palette param observations fuel random_engine profile = .ok r) :
    (∃ engine seeded,
      seed_loop palette observations param (size_t_pred observations.length) engine 0
        (List.replicate param cluster.init) [] = .ok (seeded, r.random_engine) ∧
      cycles observations r.profile.iterations seeded (List.replicate param v2d.zero)
        = some (r.clusters, r.previous_means) ∧
      converged r.clusters r.previous_means = .ok true) ∧
    ∀ profile2, partition palette param observations fuel random_engine profile2 = .ok r := by
  refine ⟨?_, fun profile2 => by
    rw [partition_profile_irrelevant _ _ _ _ _ profile2 profile]; exact h⟩
  induction fuel generalizing random_engine profile with
  | zero => simp [partition] at h
  | succ fuel ih =>
    simp only [partition] at h
    split at h
    · cases h
    · rename_i seeded rest hseed
      split at h
      · cases h
      · rename_i cs pm pf hloop
        simp only [Except.ok.injEq] at h
        subst h
        obtain ⟨m, hm, hc, hfin⟩ := lloyd_loop_cycles _ _ _ _ _ _ _ _ hloop
        refine ⟨random_engine, seeded, hseed, ?_, hfin⟩
        have hm0 : pf.iterations = m := by
          simpa [partitioning_profile.reset] using hm
        simp only [hm0]
        exact hc
      · exact ih _ _ h

/-- Witness of C17: with the stream `3, 1, 0, 1` the first attempt (seeds `3`
and `1`) completes one cycle and is abandoned with an empty cluster; the
second attempt (seeds `0` and `1`) completes one cycle and converges.  The
profile, which held `7`, ends at `1`. -/
theorem partition_iterations_of_final_attempt_witness :
    partition [1, 2] 2 [⟨2, 2⟩, ⟨2, 1⟩, ⟨3, 1⟩, ⟨3, 2⟩] 4 [3, 1, 0, 1] ⟨7⟩ =
      .ok ⟨[⟨⟨2, 2⟩, 1, [⟨2, 2⟩, ⟨3, 2⟩]⟩, ⟨⟨2, 1⟩, 2, [⟨2, 1⟩, ⟨3, 1⟩]⟩],
        [⟨2, 2⟩, ⟨2, 1⟩], ⟨1⟩, []⟩ ∧
    ((∃ engine seeded,
      seed_loop [1, 2] [⟨2, 2⟩, ⟨2, 1⟩, ⟨3, 1⟩, ⟨3, 2⟩] 2
        (size_t_pred ([⟨2, 2⟩, ⟨2, 1⟩, ⟨3, 1⟩, ⟨3, 2⟩] : List v2d).length) engine 0
        (List.replicate 2 cluster.init) [] = .ok (seeded, []) ∧
      cycles [⟨2, 2⟩, ⟨2, 1⟩, ⟨3, 1⟩, ⟨3, 2⟩] 1 seeded (List.replicate 2 v2d.zero)
        = some ([⟨⟨2, 2⟩, 1, [⟨2, 2⟩, ⟨3, 2⟩]⟩, ⟨⟨2, 1⟩, 2, [⟨2, 1⟩, ⟨3, 1⟩]⟩],
          [⟨2, 2⟩, ⟨2, 1⟩]) ∧
      converged [⟨⟨2, 2⟩, 1, [⟨2, 2⟩, ⟨3, 2⟩]⟩, ⟨⟨2, 1⟩, 2, [⟨2, 1⟩, ⟨3, 1⟩]⟩]
        [⟨2, 2⟩, ⟨2, 1⟩] = .ok true) ∧
    ∀ profile2, partition [1, 2] 2 [⟨2, 2⟩, ⟨2, 1⟩, ⟨3, 1⟩, ⟨3, 2⟩] 4 [3, 1, 0, 1] profile2 =
      .ok ⟨[⟨⟨2, 2⟩, 1, [⟨2, 2⟩, ⟨3, 2⟩]⟩, ⟨⟨2, 1⟩, 2, [⟨2, 1⟩, ⟨3, 1⟩]⟩],
        [⟨2, 2⟩, ⟨2, 1⟩], ⟨1⟩, []⟩) :=
  ⟨rfl, partition_iterations_of_final_attempt [1, 2] 2 [⟨2, 2⟩, ⟨2, 1⟩, ⟨3, 1⟩, ⟨3, 2⟩] 4
    [3, 1, 0, 1] ⟨7⟩ _ rfl⟩

end k_means

/-! ## The returned clustering and the order of the collections -/

namespace k_means

theorem clear_clusters_push (cs : List cluster) (i : Nat) (o : v2d) :
    clear_clusters (push_observation cs i o) = clear_clusters cs := by
  induction cs generalizing i with
  | nil => rfl
  | cons c cs ih =>
    cases i with
    | zero => simp [push_observation, clear_clusters]
    | succ i =>
      simp only [push_observation, clear_clusters, List.map_cons, List.cons.injEq, true_and]
      exact ih i

theorem clear_clusters_assign (observations : List v2d) (clusters result : List cluster)
    (h : assign_observations clusters observations = .ok result) :
    clear_clusters result = clear_clusters clusters := by
  induction observations generalizing clusters with
  | nil =>
    simp only [assign_observations, Except.ok.injEq] at h
    rw [h]
  | cons o rest ih =>
    simp only [assign_observations] at h
    split at h
    · rw [ih _ h, clear_clusters_push]
    · cases h

theorem clear_clusters_idem (clusters : List cluster) :
    clear_clusters (clear_clusters clusters) = clear_clusters clusters := by
  simp [clear_clusters]

/-- When the loop of `k_means::partition` is left through its condition, either
no cycle has run, or the clusters are what `assign_observations` makes of their
own means. -/
theorem lloyd_loop_fixed_point (observations : List v2d) (fuel : Nat) (clusters : List cluster)
    (previous_means : List v2d) (profile : partitioning_profile)
    (cs : List cluster) (pm : List v2d) (pf : partitioning_profile)
    (h : lloyd_loop observations fuel clusters previous_means profile = .ok (.finished cs pm pf)) :
    (cs = clusters ∧ pm = previous_means ∧ pf = profile ∧
      converged clusters previous_means = .ok true) ∨
    assign_observations (clear_clusters cs) observations = .ok cs := by
  induction fuel generalizing clusters previous_means profile with
  | zero => simp [lloyd_loop] at h
  | succ fuel ih =>
    simp only [lloyd_loop] at h
    split at h
    · cases h
    · rename_i hconv
      simp only [Except.ok.injEq, attempt.finished.injEq] at h
      exact Or.inl ⟨h.1.symm, h.2.1.symm, h.2.2.symm, hconv⟩
    · split at h
      · cases h
      · rename_i assigned hassign
        split at h
        · cases h
        · rcases ih _ _ _ h with ⟨h1, _, _, hconv⟩ | hfix
          · right
            have hlen : (update_means assigned).1.length = (update_means assigned).2.length := by
              simp [update_means]
            rw [converged_eq _ _ hlen] at hconv
            simp only [Except.ok.injEq, decide_eq_true_eq, update_means, List.map_map] at hconv
            have hid : (update_means assigned).1 = assigned := by
              simp only [update_means]
              have hall : ∀ c ∈ assigned, compute_centroid c = c.mean := by
                intro c hc
                have := List.map_inj_left.mp hconv c hc
                simpa using this
              calc assigned.map (fun c => { c with mean := compute_centroid c })
                  = assigned.map id := by
                    apply List.map_congr_left
                    intro c hc
                    simp only [id]
                    rw [hall c hc]
                _ = assigned := List.map_id _
            rw [h1, hid, clear_clusters_assign _ _ _ hassign, clear_clusters_idem]
            exact hassign
          · exact Or.inr hfix

/-- Whenever `k_means::partition` returns, either no cycle has run and the
returned collections are empty, or running `assign_observations` again on the
returned means gives the returned clusters. -/
theorem partition_fixed_point (palette : List Nat) (param : Nat) (observations : List v2d)
    (fuel : Nat) (random_engine : List Nat) (profile : partitioning_profile) (r : result)
    (h : partition palette param observations fuel random_engine profile = .ok r) :
    (r.profile.iterations = 0 ∧ ∀ c ∈ r.clusters, c.observations = []) ∨
    assign_observations (clear_clusters r.clusters) observations = .ok r.clusters := by
  induction fuel generalizing random_engine profile with
  | zero => simp [partition] at h
  | succ fuel ih =>
    simp only [partition] at h
    split at h
    · cases h
    · rename_i seeded rest hseed
      split at h
      · cases h
      · rename_i cs pm pf hloop
        simp only [Except.ok.injEq] at h
        subst h
        rcases lloyd_loop_fixed_point _ _ _ _ _ _ _ _ hloop with ⟨h1, _, h3, _⟩ | hfix
        · left
          subst h1 h3
          exact ⟨rfl, seed_loop_observations _ _ _ _ _ _ _ _ _ _ hseed
            (by
              intro c hc
              rw [List.eq_of_mem_replicate hc]
              rfl)⟩
        · exact Or.inr hfix
      · exact ih _ _ h

/-- C19 (failing input): with the single observation `(0,0)` and `K = 1` the
call returns a cluster with the mean `(0,0)` and no observation, whereas
`assign_observations` on the returned mean puts the observation into the
cluster: the returned collections are not the ones of the assignment step. -/
theorem zero_seed_result_is_not_the_assignment :
    ∃ r, partition [1] 1 [⟨0, 0⟩] 2 [0] ⟨0⟩ = .ok r ∧
      r.clusters = [⟨⟨0, 0⟩, 1, []⟩] ∧
      assign_observations (clear_clusters r.clusters) [⟨0, 0⟩]
        = .ok [⟨⟨0, 0⟩, 1, [⟨0, 0⟩]⟩] ∧
      assign_observations (clear_clusters r.clusters) [⟨0, 0⟩] ≠ .ok r.clusters :=
  ⟨_, rfl, rfl, rfl, by
    intro h
    have h2 : assign_observations (clear_clusters [⟨⟨0, 0⟩, 1, []⟩]) [⟨0, 0⟩]
        = .ok [⟨⟨0, 0⟩, 1, [⟨0, 0⟩]⟩] := rfl
    have h3 : (Except.ok [⟨⟨0, 0⟩, 1, [⟨0, 0⟩]⟩] : Except Fault (List cluster))
        = .ok [⟨⟨0, 0⟩, 1, []⟩] := h2.symm.trans h
    simp only [Except.ok.injEq] at h3
    exact absurd h3 (by decide)⟩

theorem assign_observations_sublist (clusters result : List cluster) (observations : List v2d)
    (hclear : ∀ c ∈ clusters, c.observations = [])
    (h : assign_observations clusters observations = .ok result) :
    ∀ c ∈ result, c.observations.Sublist observations := by
  by_cases hnil : clusters = []
  · subst hnil
    cases observations with
    | nil =>
      simp only [assign_observations, Except.ok.injEq] at h
      rw [← h]
      intro c hc; cases hc
    | cons o rest => simp [assign_observations, closest_cluster_index, closest_loop] at h
  · rw [assign_observations_eq _ _ hnil, Except.ok.injEq] at h
    intro c hc
    obtain ⟨j, hj⟩ := List.mem_iff_getElem?.mp hc
    rw [← h, distribute_getElem?] at hj
    cases hc0 : clusters[j]? with
    | none => rw [hc0] at hj; cases hj
    | some c0 =>
      rw [hc0] at hj
      simp only [Option.map_some', Option.some.injEq] at hj
      rw [← hj]
      simp only [hclear c0 (List.getElem?_mem hc0), List.nil_append]
      exact List.filter_sublist _

end k_means

namespace k_medoids

theorem update_medoids_observations (clusters : List cluster) (random_engine : List Nat)
    (updated : List cluster) (previous_means : List v2d) (rest : List Nat)
    (h : update_medoids clusters random_engine = .ok (updated, previous_means, rest)) :
    ∀ c ∈ updated, ∃ c0 ∈ clusters, c.observations = c0.observations := by
  induction clusters generalizing random_engine updated previous_means rest with
  | nil =>
    simp only [update_medoids, Except.ok.injEq, Prod.mk.injEq] at h
    rw [← h.1]
    intro c hc; cases hc
  | cons c cs ih =>
    simp only [update_medoids] at h
    split at h
    · cases h
    · split at h
      · cases h
      · rename_i tail pm engine3 htail
        simp only [Except.ok.injEq, Prod.mk.injEq] at h
        rw [← h.1]
        intro d hd
        rcases List.mem_cons.mp hd with hd | hd
        · exact ⟨c, List.mem_cons_self _ _, by rw [hd]⟩
        · obtain ⟨c0, hc0, heq⟩ := ih _ _ _ _ htail d hd
          exact ⟨c0, List.mem_cons_of_mem _ hc0, heq⟩

theorem medoid_loop_sublist (observations : List v2d) (fuel : Nat) (clusters : List cluster)
    (previous_means : List v2d) (current previous : Option Int) (profile : partitioning_profile)
    (random_engine : List Nat) (r : result)
    (h : medoid_loop observations fuel clusters previous_means current previous profile
      random_engine = .ok r) :
    ∀ c ∈ r.clusters, c.observations.Sublist observations := by
  induction fuel generalizing clusters previous_means current previous profile random_engine with
  | zero => simp [medoid_loop] at h
  | succ fuel ih =>
    simp only [medoid_loop] at h
    split at h
    · cases h
    · rename_i assigned hassign
      split at h
      · split at h
        · split at h
          · exact ih _ _ _ _ _ _ h
          · cases h
        · cases h
      · split at h
        · cases h
        · rename_i updated pm engine2 hupd
          have hsub : ∀ c ∈ updated, c.observations.Sublist observations := by
            intro c hc
            obtain ⟨c0, hc0, heq⟩ := update_medoids_observations _ _ _ _ _ hupd c hc
            rw [heq]
            exact k_means.assign_observations_sublist _ _ _
              (k_means.clear_clusters_observations clusters) hassign c0 hc0
          split at h
          · simp only [Except.ok.injEq] at h
            subst h
            exact hsub
          · exact ih _ _ _ _ _ _ h

/-- C20 (order of the collections): for an observation list sorted by
non-decreasing `x` and a non-empty vector of cleared clusters,
`assign_observations` returns and every collection it builds keeps the
relative order of the input, so it is sorted by non-decreasing `x` itself.
Hence the collection of every cluster that `k_medoids::partition` returns is
a sublist of the observation sequence as the call leaves it, sorted by
non-decreasing `x`. -/
theorem assign_observations_keeps_order (clusters : List cluster) (observations : List v2d)
    (hne : clusters ≠ []) (hclear : ∀ c ∈ clusters, c.observations = [])
    (hsorted : observations.Sorted (fun a b => a.x ≤ b.x)) :
    (∃ result, k_means.assign_observations clusters observations = .ok result ∧
      ∀ c ∈ result, c.observations.Sublist observations ∧
        c.observations.Sorted (fun a b => a.x ≤ b.x)) ∧
    ∀ palette param raw fuel random_engine profile r,
      partition palette param raw fuel random_engine profile = .ok r →
      ∀ c ∈ r.clusters, c.observations.Sublist r.observations ∧
        c.observations.Sorted (fun a b => a.x ≤ b.x) := by
  constructor
  · refine ⟨_, k_means.assign_observations_eq clusters observations hne, ?_⟩
    intro c hc
    have hsub := k_means.assign_observations_sublist clusters _ observations hclear
      (k_means.assign_observations_eq clusters observations hne) c hc
    exact ⟨hsub, hsorted.sublist hsub⟩
  · intro palette param raw fuel random_engine profile r h c hc
    have h2 := h
    simp only [partition] at h2
    split at h2
    · cases h2
    · rename_i means after hfind
      split at h2
      · cases h2
      · have hobs := (medoid_loop_spec _ _ _ _ _ _ _ _ r h2).1
        have hsub := medoid_loop_sublist _ _ _ _ _ _ _ _ r h2 c hc
        have hafter := find_optimal_means_observations _ _ _ _ hfind
        rw [← hobs] at hsub
        have hs : r.observations.Sorted (fun a b => a.x ≤ b.x) := by
          rw [hobs, hafter]
          exact sort_by_x_sorted raw
        exact ⟨hsub, hs.sublist hsub⟩

/-- Witness of C20: the scenario, whose observations are sorted by `x`. -/
theorem assign_observations_keeps_order_witness :
    (k_means.scenario_clusters ≠ [] ∧
      (∀ c ∈ k_means.scenario_clusters, c.observations = []) ∧
      k_means.scenario_observations.Sorted (fun a b => a.x ≤ b.x)) ∧
    ((∃ result, k_means.assign_observations k_means.scenario_clusters
        k_means.scenario_observations = .ok result ∧
      ∀ c ∈ result, c.observations.Sublist k_means.scenario_observations ∧
        c.observations.Sorted (fun a b => a.x ≤ b.x)) ∧
    ∀ palette param raw fuel random_engine profile r,
      partition palette param raw fuel random_engine profile = .ok r →
      ∀ c ∈ r.clusters, c.observations.Sublist r.observations ∧
        c.observations.Sorted (fun a b => a.x ≤ b.x)) :=
  ⟨⟨by decide, by decide, by decide⟩,
    assign_observations_keeps_order k_means.scenario_clusters k_means.scenario_observations
      (by decide) (by decide) (by decide)⟩

end k_medoids

/-! ## The medoid of a sorted cluster -/

theorem tdiv_lt_of_sum_lt (s n b : Int) (hn : 0 < n) (h : s ≤ n * (b - 1)) :
    Int.tdiv s n < b := by
  rcases le_or_lt 0 s with hs | hs
  · rw [Int.tdiv_eq_ediv hs hn.le]
    apply Int.ediv_lt_of_lt_mul hn
    nlinarith
  · have hneg : s = -(-s) := by ring
    rw [hneg, Int.neg_tdiv, Int.tdiv_eq_ediv (by omega) hn.le]
    have hle : (1 - b) ≤ (-s) / n := by
      apply Int.le_ediv_of_mul_le hn
      nlinarith
    omega

theorem lower_bound_loop_spec (l : List v2d) (target : v2d)
    (hsorted : l.Sorted (fun a b => a.x ≤ b.x)) (fuel first len : Nat)
    (hfuel : len ≤ fuel) (hbound : first + len ≤ l.length)
    (hlow : ∀ (i : Nat) (o : v2d), i < first → l[i]? = some o → o.x < target.x)
    (hhigh : ∀ (i : Nat) (o : v2d), first + len ≤ i → l[i]? = some o → target.x ≤ o.x) :
    (∀ (i : Nat) (o : v2d), i < lower_bound_loop l target fuel first len →
        l[i]? = some o → o.x < target.x) ∧
    (∀ (i : Nat) (o : v2d), lower_bound_loop l target fuel first len ≤ i →
        l[i]? = some o → target.x ≤ o.x) := by
  induction fuel generalizing first len with
  | zero =>
    have hlen : len = 0 := by omega
    subst hlen
    simp only [lower_bound_loop]
    exact ⟨hlow, fun i o hi => hhigh i o (by omega)⟩
  | succ fuel ih =>
    simp only [lower_bound_loop]
    split
    · rename_i hlen
      subst hlen
      exact ⟨hlow, fun i o hi => hhigh i o (by omega)⟩
    · rename_i hlen
      have hmid : first + len / 2 < l.length := by
        have : len / 2 < len := Nat.div_lt_self (by omega) (by omega)
        omega
      have hpair := List.pairwise_iff_getElem.mp hsorted
      split
      · rename_i obs hobs
        obtain ⟨_, hget⟩ := List.getElem?_eq_some.mp hobs
        split
        · rename_i hlt
          apply ih (first + len / 2 + 1) (len - len / 2 - 1) (by omega) (by omega)
          · intro i o hi ho
            obtain ⟨hil, hgi⟩ := List.getElem?_eq_some.mp ho
            rcases Nat.lt_or_ge i (first + len / 2) with hlt2 | hge2
            · have := hpair i (first + len / 2) hil hmid hlt2
              rw [hgi, hget] at this
              omega
            · have heq : i = first + len / 2 := by omega
              subst heq
              rw [hget] at hgi
              rw [← hgi]
              exact hlt
          · intro i o hi ho
            exact hhigh i o (by omega) ho
        · rename_i hge
          apply ih first (len / 2) (by omega) (by omega) hlow
          intro i o hi ho
          obtain ⟨hil, hgi⟩ := List.getElem?_eq_some.mp ho
          rcases Nat.lt_or_ge (first + len / 2) i with hlt2 | hge2
          · have := hpair (first + len / 2) i hmid hil hlt2
            rw [hgi, hget] at this
            omega
          · have heq : i = first + len / 2 := by omega
            subst heq
            rw [hget] at hgi
            rw [← hgi]
            omega
      · rename_i hnone
        have := List.getElem?_eq_none_iff.mp hnone
        omega

theorem lower_bound_index_eq (before after : List v2d) (medoid target : v2d)
    (hsorted : (before ++ medoid :: after).Sorted (fun a b => a.x ≤ b.x))
    (hbefore : ∀ o ∈ before, o.x < target.x) (hmedoid : target.x ≤ medoid.x) :
    lower_bound_index (before ++ medoid :: after) target = before.length := by
  have hspec := lower_bound_loop_spec (before ++ medoid :: after) target hsorted
    (before ++ medoid :: after).length 0 (before ++ medoid :: after).length (le_refl _)
    (by omega) (fun i o hi => absurd hi (Nat.not_lt_zero i))
    (fun i o hi ho => by
      have := List.getElem?_eq_none_iff.mpr (show (before ++ medoid :: after).length ≤ i by omega)
      rw [this] at ho
      cases ho)
  simp only [lower_bound_index]
  rcases Nat.lt_trichotomy
    (lower_bound_loop (before ++ medoid :: after) target (before ++ medoid :: after).length 0
      (before ++ medoid :: after).length) before.length with hlt | heq | hgt
  · obtain ⟨o, ho⟩ : ∃ o, before[lower_bound_loop (before ++ medoid :: after) target
        (before ++ medoid :: after).length 0 (before ++ medoid :: after).length]? = some o :=
      ⟨_, List.getElem?_eq_getElem hlt⟩
    have hmem : o ∈ before := List.getElem?_mem ho
    have h1 := hbefore o hmem
    have h2 := hspec.2 _ o (le_refl _) (by rw [List.getElem?_append_left hlt]; exact ho)
    omega
  · exact heq
  · have h1 := hspec.1 before.length medoid hgt (by
      rw [List.getElem?_append_right (le_refl _)]
      simp)
    omega

theorem lower_bound_eq_first (before after : List v2d) (medoid target : v2d)
    (hbefore : ∀ o ∈ before, o.x < target.x) (hmedoid : target.x ≤ medoid.x) :
    lower_bound (before ++ medoid :: after) target = some medoid := by
  simp only [lower_bound]
  rw [List.find?_eq_some]
  refine ⟨by simpa using hmedoid, before, after, rfl, ?_⟩
  intro a ha
  simpa using hbefore a ha

/-- On a range that is not sorted the search may run past the end although an
element qualifies: for `(10,0), (0,0), (0,0)` and the target `(3,0)`, which is
the centroid of these three points, it returns the index `3`. -/
theorem lower_bound_index_unsorted :
    lower_bound_index [⟨10, 0⟩, ⟨0, 0⟩, ⟨0, 0⟩] ⟨3, 0⟩ = 3 ∧
    k_means.compute_centroid ⟨⟨0, 0⟩, 0, [⟨10, 0⟩, ⟨0, 0⟩, ⟨0, 0⟩]⟩ = ⟨3, 0⟩ := by
  constructor <;> rfl

namespace k_means

theorem compute_centroid_x_le (c : cluster) (hne : c.observations ≠ []) :
    ∃ o ∈ c.observations, (compute_centroid c).x ≤ o.x := by
  by_contra hcon
  push_neg at hcon
  have hlen : 0 < c.observations.length := List.length_pos.mpr hne
  have hsum : (c.observations.map (fun o => o.x)).sum ≤
      (c.observations.length : Int) * ((compute_centroid c).x - 1) := by
    have h := List.sum_le_card_nsmul (c.observations.map (fun o => o.x))
      ((compute_centroid c).x - 1) (by
        intro x hx
        obtain ⟨o, ho, rfl⟩ := List.mem_map.mp hx
        have := hcon o ho
        omega)
    simpa using h
  have hx : (compute_centroid c).x =
      Int.tdiv (c.observations.map (fun o => o.x)).sum (c.observations.length : Int) := by
    have hpos : (1 : Int) ≤ (c.observations.length : Int) := by omega
    simp only [compute_centroid, foldl_add_eq, v2d.zero, v2d.div, centroid_divisor, zero_add,
      max_eq_left hpos]
  have hlt := tdiv_lt_of_sum_lt _ (c.observations.length : Int) (compute_centroid c).x
    (by omega) hsum
  omega

end k_means

namespace k_medoids

/-- C21 (medoid of a sorted cluster): for a cluster whose observation collection
is non-empty and sorted in non-decreasing `x`, the observations split into those
before the medoid, all with `x` below the `x` of the integer centroid, the medoid
itself, whose `x` is at least that of the centroid, and the rest; the search of
`std::lower_bound` stops at the medoid, and `compute_medoid` returns it for every
random engine and leaves the engine untouched: the fallback branch is not taken.
The centroid's `x` does not exceed the `x` of the last (that is, the greatest)
observation.  The integers of the embedding are unbounded, which is what the
assumption that the coordinate sums fit the 32-bit type grants. -/
theorem compute_medoid_first_not_below_centroid (c : cluster)
    (hne : c.observations ≠ [])
    (hsorted : c.observations.Sorted (fun a b => a.x ≤ b.x)) :
    (k_means.compute_centroid c).x ≤ (c.observations.getLast hne).x ∧
    ∃ (before after : List v2d) (medoid : v2d),
      c.observations = before ++ medoid :: after ∧
      (∀ o ∈ before, o.x < (k_means.compute_centroid c).x) ∧
      (k_means.compute_centroid c).x ≤ medoid.x ∧
      lower_bound_index c.observations (k_means.compute_centroid c) = before.length ∧
      lower_bound c.observations (k_means.compute_centroid c) = some medoid ∧
      ∀ random_engine : List Nat, compute_medoid c random_engine = .ok (medoid, random_engine) := by
  obtain ⟨o, ho, hle⟩ := k_means.compute_centroid_x_le c hne
  constructor
  · have hlast : o.x ≤ (c.observations.getLast hne).x := by
      obtain ⟨i, hi, hgi⟩ := List.getElem_of_mem ho
      have hpair := List.pairwise_iff_getElem.mp hsorted
      rw [List.getLast_eq_getElem]
      have hpos : 0 < c.observations.length := List.length_pos.mpr hne
      rcases Nat.lt_or_ge i (c.observations.length - 1) with hlt | hge
      · have := hpair i (c.observations.length - 1) hi (by omega) hlt
        rw [hgi] at this
        exact this
      · have heq : i = c.observations.length - 1 := by omega
        subst heq
        rw [hgi]
    omega
  · cases hfind : lower_bound c.observations (k_means.compute_centroid c) with
    | none =>
      simp only [lower_bound] at hfind
      have := List.find?_eq_none.mp hfind o ho
      simp at this
      omega
    | some medoid =>
      have hsome := hfind
      simp only [lower_bound] at hsome
      obtain ⟨hp, before, after, hsplit, hbefore⟩ := List.find?_eq_some.mp hsome
      have hb : ∀ a ∈ before, a.x < (k_means.compute_centroid c).x := by
        intro a ha
        simpa using hbefore a ha
      have hm : (k_means.compute_centroid c).x ≤ medoid.x := by simpa using hp
      refine ⟨before, after, medoid, hsplit, hb, hm, ?_, rfl, ?_⟩
      · have hs := hsorted
        rw [hsplit] at hs
        have := lower_bound_index_eq before after medoid (k_means.compute_centroid c) hs hb hm
        rw [← hsplit] at this
        exact this
      · intro random_engine
        simp only [compute_medoid, hfind]

/-- Witness of C21: the cluster of `(-3,0)` and `(-2,5)`, whose coordinate sums
`(-5, 5)` divided by two truncate to the centroid `(-2, 2)`. -/
theorem compute_medoid_first_not_below_centroid_witness :
    (k_means.compute_centroid ⟨⟨0, 0⟩, 0, [⟨-3, 0⟩, ⟨-2, 5⟩]⟩).x ≤
      (([⟨-3, 0⟩, ⟨-2, 5⟩] : List v2d).getLast (by decide)).x ∧
    ∃ (before after : List v2d) (medoid : v2d),
      ([⟨-3, 0⟩, ⟨-2, 5⟩] : List v2d) = before ++ medoid :: after ∧
      (∀ o ∈ before, o.x < (k_means.compute_centroid ⟨⟨0, 0⟩, 0, [⟨-3, 0⟩, ⟨-2, 5⟩]⟩).x) ∧
      (k_means.compute_centroid ⟨⟨0, 0⟩, 0, [⟨-3, 0⟩, ⟨-2, 5⟩]⟩).x ≤ medoid.x ∧
      lower_bound_index [⟨-3, 0⟩, ⟨-2, 5⟩]
        (k_means.compute_centroid ⟨⟨0, 0⟩, 0, [⟨-3, 0⟩, ⟨-2, 5⟩]⟩) = before.length ∧
      lower_bound [⟨-3, 0⟩, ⟨-2, 5⟩]
        (k_means.compute_centroid ⟨⟨0, 0⟩, 0, [⟨-3, 0⟩, ⟨-2, 5⟩]⟩) = some medoid ∧
      ∀ random_engine : List Nat,
        compute_medoid ⟨⟨0, 0⟩, 0, [⟨-3, 0⟩, ⟨-2, 5⟩]⟩ random_engine =
          .ok (medoid, random_engine) :=
  compute_medoid_first_not_below_centroid ⟨⟨0, 0⟩, 0, [⟨-3, 0⟩, ⟨-2, 5⟩]⟩ (by decide)
    (by decide)

end k_medoids

end ntf.cluster
